import Mathlib

/-!
# llsimplecache: a fixed-capacity cache of 32-bit payloads

A shallow embedding of `src/src/llsimplecache.c` (single-threaded executions)
and theorems about it.

* Machine integers are natural numbers; `uint32_t` arithmetic is reduced
  modulo `2 ^ 32`, `size_t` arithmetic modulo `2 ^ 64`.
* The slot array is a `List Nat`; an access outside the array is the outcome
  `Res.fault`.
* Every loop is driven by a fuel counter that is decremented once per loop
  iteration (also per retry of a compare-and-swap); running out of fuel is the
  outcome `Res.timeout`.
* The external hash function `hash_mul` is a parameter.
* A call of the release callback is recorded as an entry `(function, context,
  payload)` of a trace.
-/

namespace LLSimpleCache

/-! ## Outcomes -/

/-- Outcome of a modelled call: a value, an access outside the slot array, or
fuel exhausted. -/
inductive Res (α : Type) where
  | ok (a : α)
  | fault
  | timeout
  deriving DecidableEq, Repr

/-! ## Constants (lines 15-45) -/

/-- Default cache line, in bytes. -/
def LINE_SIZE : Nat := 64

/-- Number of 4-byte slots per cache line. -/
def HASH_PER_CL : Nat := LINE_SIZE / 4

/-- The 32-bit complement of `LINE_SIZE / 4 - 1`, that is `0xFFFFFFF0`. -/
def CL_MASK : Nat := (2 ^ 32 - 1) - (LINE_SIZE / 4 - 1)

/-- The low bits selecting a slot inside its line, `0x0000000F`. -/
def CL_MASK_R : Nat := LINE_SIZE / 4 - 1

/-- The reserved slot value. -/
def EMPTY : Nat := 0

/-! ## The cache structure (lines 23-30) -/

/-- The record `struct llsimplecache`. `cb_delete = none` is the NULL function
pointer. -/
structure llsimplecache where
  cache_size : Nat
  mask : Nat
  table : List Nat
  cb_delete : Option Nat
  cb_data : Nat
  deriving DecidableEq, Repr

/-- The cache `dbs` with the content of its slot array replaced by `t`. -/
def with_table (dbs : llsimplecache) (t : List Nat) : llsimplecache :=
  { dbs with table := t }

/-- One call `cb_delete(cb_data, data)`: function, context, payload. -/
abbrev CbCall : Type := Nat × Nat × Nat

/-! ## Primitive operations -/

/-- The builtin `__sync_bool_compare_and_swap(&t[a], old, new)` executed
without interference: success flag and the table afterwards. -/
def cas (t : List Nat) (a old new : Nat) : Bool × List Nat :=
  if t[a]? = some old then (true, t.set a new) else (false, t)

/-- The function `next` (lines 47-51): the updated `*cur` and the returned
flag `*cur != last`. -/
def next (cur last : Nat) : Nat × Bool :=
  let cur1 := (cur &&& CL_MASK) ||| (((cur + 1) % 2 ^ 32) &&& CL_MASK_R)
  (cur1, cur1 != last)

/-- The four bytes of a 32-bit word as laid out in memory (little endian). -/
def word_bytes (d : Nat) : List Nat :=
  [d % 256, d / 256 % 256, d / 65536 % 256, d / 16777216 % 256]

/-! ## llsimplecache_put (lines 53-94) -/

/-- The loop `while (1)` of lines 84-93: claim the bucket `f_idx`. The result
is the return code, the table afterwards and `*data` afterwards. -/
def put_claim (d f_idx : Nat) : Nat → List Nat → Res (Nat × List Nat × Nat)
  | 0, _ => Res.timeout
  | fuel + 1, t =>
    match t[f_idx]? with
    | none => Res.fault
    | some v =>
      if v = d then Res.ok (0, t, d)
      else
        match cas t f_idx v d with
        | (true, t1) => Res.ok (2, t1, v)
        | (false, t1) => put_claim d f_idx fuel t1

/-- The loop `do ... while (next(&idx, f_idx))` of lines 64-80, with the jump
back to `restart_bucket`, followed by the claim loop. -/
def put_scan (d f_idx : Nat) : Nat → Nat → List Nat → Res (Nat × List Nat × Nat)
  | 0, _, _ => Res.timeout
  | fuel + 1, idx, t =>
    match t[idx]? with
    | none => Res.fault
    | some v =>
      if v = EMPTY then
        match cas t idx EMPTY d with
        | (true, t1) => Res.ok (1, t1, d)
        | (false, t1) => put_scan d f_idx fuel idx t1
      else if v = d then Res.ok (0, t, d)
      else
        match next idx f_idx with
        | (idx1, true) => put_scan d f_idx fuel idx1 t
        | (_, false) => put_claim d f_idx fuel t

/-- The hash used by `put` after lines 55-56. -/
def put_hash (hash_mul : List Nat → Nat → Nat) (data hash : Nat) : Nat :=
  let hash1 := if hash = 0 then hash_mul (word_bytes data) 4 % 2 ^ 32 else hash
  if hash1 = 0 then (hash1 + 1) % 2 ^ 32 else hash1

/-- The function `llsimplecache_put`: `data` is the word `*data` on entry; the
result is the return code, the cache afterwards and `*data` on return. -/
def llsimplecache_put (hash_mul : List Nat → Nat → Nat) (fuel : Nat)
    (dbs : llsimplecache) (data hash : Nat) : Res (Nat × llsimplecache × Nat) :=
  let hash2 := put_hash hash_mul data hash
  let f_idx := hash2 &&& dbs.mask
  let idx := f_idx
  let d := data
  match put_scan d f_idx fuel idx dbs.table with
  | Res.ok (r, t1, data1) => Res.ok (r, with_table dbs t1, data1)
  | Res.fault => Res.fault
  | Res.timeout => Res.timeout

/-! ## llsimplecache_create (lines 96-128) -/

/-- Number of zero bits above the highest set bit among the low `n` bits of
`x`, for `x < 2 ^ n`. -/
def clz_from : Nat → Nat → Nat
  | 0, _ => 0
  | n + 1, x => if 2 ^ n ≤ x then 0 else 1 + clz_from n x

/-- The builtin `__builtin_clz` on a 32-bit word: the number of leading zero
bits. -/
def clz (x : Nat) : Nat := clz_from 32 x

/-- The function `next_pow2` on `unsigned` (lines 96-100). -/
def next_pow2 (x : Nat) : Nat :=
  if x ≤ 2 then x else ((1 <<< 32) >>> clz (x - 1)) % 2 ^ 32

/-- The function `llsimplecache_create`; `none` is a failed assertion. The
allocations are taken to succeed. -/
def llsimplecache_create (cache_size : Nat) (cb_delete : Option Nat) (cb_data : Nat) :
    Option llsimplecache :=
  let cache_size1 := if cache_size < HASH_PER_CL then HASH_PER_CL else cache_size
  if next_pow2 (cache_size1 % 2 ^ 32) = cache_size1 then
    some { cache_size := cache_size1
           mask := (cache_size1 - 1) % 2 ^ 32
           table := List.replicate cache_size1 0
           cb_delete := cb_delete
           cb_data := cb_data }
  else none

/-! ## llsimplecache_clear and llsimplecache_clear_partial (lines 130-156) -/

/-- The loop `while (bucket < end) *bucket++ = 0` of line 141; `i` and `e` are
the slot indices of `bucket` and `end`. -/
def clear_plain : Nat → List Nat → Nat → Nat → Res (List Nat)
  | 0, _, _, _ => Res.timeout
  | fuel + 1, t, i, e =>
    if i < e then
      if i < t.length then clear_plain fuel (t.set i 0) (i + 1) e else Res.fault
    else Res.ok t

/-- The loops of lines 145-155: every iteration of the outer or of the inner
loop takes one unit of fuel. The trace gathers the callback calls. -/
def clear_cb (f ctx : Nat) : Nat → List Nat → Nat → Nat → List CbCall →
    Res (List Nat × List CbCall)
  | 0, _, _, _, _ => Res.timeout
  | fuel + 1, t, i, e, tr =>
    if i < e then
      match t[i]? with
      | none => Res.fault
      | some data =>
        if data = 0 then clear_cb f ctx fuel t (i + 1) e tr
        else
          match cas t i data 0 with
          | (true, t1) => clear_cb f ctx fuel t1 (i + 1) e (tr ++ [(f, ctx, data)])
          | (false, t1) => clear_cb f ctx fuel t1 i e tr
    else Res.ok (t, tr)

/-- The function `llsimplecache_clear_partial`: the cache afterwards and the
callback calls made, in order. -/
def llsimplecache_clear_partial (fuel : Nat) (dbs : llsimplecache) (first count : Nat) :
    Res (llsimplecache × List CbCall) :=
  let bucket := first
  let e := (first + count) % 2 ^ 64
  match dbs.cb_delete with
  | none =>
    match clear_plain fuel dbs.table bucket e with
    | Res.ok t1 => Res.ok (with_table dbs t1, [])
    | Res.fault => Res.fault
    | Res.timeout => Res.timeout
  | some f =>
    match clear_cb f dbs.cb_data fuel dbs.table bucket e [] with
    | Res.ok (t1, tr) => Res.ok (with_table dbs t1, tr)
    | Res.fault => Res.fault
    | Res.timeout => Res.timeout

/-- The function `llsimplecache_clear`. -/
def llsimplecache_clear (fuel : Nat) (dbs : llsimplecache) :
    Res (llsimplecache × List CbCall) :=
  llsimplecache_clear_partial fuel dbs 0 dbs.cache_size

/-! ## Specification-level notions -/

/-- The content of slot `i`; slots outside the array read as `0`. -/
def slot (t : List Nat) (i : Nat) : Nat := t.getD i 0

/-- The slot visited at step `k` of the walk that starts at `home`: the walk
stays inside the line-aligned block of 16 slots of `home` and wraps in it. -/
def walk_slot (home k : Nat) : Nat := home / 16 * 16 + (home + k) % 16

/-- The 16 slots of the neighbourhood of `home`, in walk order. -/
def walk (home : Nat) : List Nat := (List.range 16).map (walk_slot home)

/-- The scan described by the specification over the slots `slots`: the first
slot that is EMPTY or holds `d` decides; without one the slot `home` is
traded. -/
def scan_ref (t : List Nat) (d home : Nat) (slots : List Nat) : Nat × List Nat × Nat :=
  match slots.find? (fun i => decide (slot t i = EMPTY) || decide (slot t i = d)) with
  | some i => if slot t i = d then (0, t, d) else (1, t.set i d, d)
  | none => (2, t.set home d, slot t home)

/-- Reference definition of `put` for a hash `h`, following the words of the
specification. -/
def put_ref (dbs : llsimplecache) (d h : Nat) : Nat × llsimplecache × Nat :=
  let home := h &&& dbs.mask
  match scan_ref dbs.table d home (walk home) with
  | (r, t1, data1) => (r, with_table dbs t1, data1)

/-- The data-model invariant of a cache: the capacity is a power of two and at
least one neighbourhood, `mask` is `capacity - 1` as a 32-bit word, the slot
array has `capacity` slots, and the capacity is a `size_t`. -/
def WF (dbs : llsimplecache) : Prop :=
  (∃ k, dbs.cache_size = 2 ^ k) ∧ 16 ≤ dbs.cache_size ∧
    dbs.mask = (dbs.cache_size - 1) % 2 ^ 32 ∧ dbs.table.length = dbs.cache_size ∧
    dbs.cache_size < 2 ^ 64

/-- An operation of a single-threaded client: `put` of a payload with a hash
argument, `clear`, or `clear_partial` of a range. -/
inductive Op where
  | put (d h : Nat)
  | clear
  | clear_range (first count : Nat)
  deriving DecidableEq, Repr

/-- The cache after one operation (return codes, `*data` and callback calls
dropped). -/
def step (hash_mul : List Nat → Nat → Nat) (fuel : Nat) (dbs : llsimplecache) :
    Op → Res llsimplecache
  | Op.put d h =>
    match llsimplecache_put hash_mul fuel dbs d h with
    | Res.ok (_, dbs1, _) => Res.ok dbs1
    | Res.fault => Res.fault
    | Res.timeout => Res.timeout
  | Op.clear =>
    match llsimplecache_clear fuel dbs with
    | Res.ok (dbs1, _) => Res.ok dbs1
    | Res.fault => Res.fault
    | Res.timeout => Res.timeout
  | Op.clear_range first count =>
    match llsimplecache_clear_partial fuel dbs first count with
    | Res.ok (dbs1, _) => Res.ok dbs1
    | Res.fault => Res.fault
    | Res.timeout => Res.timeout

/-- The cache after a sequence of operations. -/
def run (hash_mul : List Nat → Nat → Nat) (fuel : Nat) :
    llsimplecache → List Op → Res llsimplecache
  | dbs, [] => Res.ok dbs
  | dbs, op :: ops =>
    match step hash_mul fuel dbs op with
    | Res.ok dbs1 => run hash_mul fuel dbs1 ops
    | Res.fault => Res.fault
    | Res.timeout => Res.timeout

/-- No non-zero payload is stored in two different slots. -/
def no_dup (t : List Nat) : Prop :=
  ∀ i j, i < t.length → j < t.length → slot t i ≠ 0 → slot t i = slot t j → i = j

/-- The callback calls that clearing the values `vs` makes, in order: one per
non-zero value. -/
def release_calls (f ctx : Nat) (vs : List Nat) : List CbCall :=
  (vs.filter (fun v => decide (v ≠ 0))).map (fun v => (f, ctx, v))

/-- The prefix condition of the scan: the first `k` slots of the walk are
neither EMPTY nor `d`. -/
def scanned (t : List Nat) (d home k : Nat) : Prop :=
  ∀ j, j < k → slot t (walk_slot home j) ≠ 0 ∧ slot t (walk_slot home j) ≠ d

/-- Every stored payload lies in the neighbourhood of the home slot that the
hash `eff` gives it, and the walk from that home slot reaches it before any
EMPTY slot. -/
def chain_inv (eff : Nat → Nat) (dbs : llsimplecache) : Prop :=
  ∀ i, i < dbs.table.length → slot dbs.table i ≠ 0 →
    ∃ k, k < 16 ∧ walk_slot (eff (slot dbs.table i) &&& dbs.mask) k = i ∧
      ∀ j, j < k → slot dbs.table (walk_slot (eff (slot dbs.table i) &&& dbs.mask) j) ≠ 0

/-- The operations under which the absence of duplicates is an invariant, for
a cache of capacity `cap`: a `put` of a non-zero payload whose hash argument is
the fixed function `g` of the payload, a `clear`, and a range clear over whole
neighbourhoods inside the table. -/
def op_ok (g : Nat → Nat) (cap : Nat) : Op → Prop
  | Op.put d h => d ≠ 0 ∧ h = g d
  | Op.clear => True
  | Op.clear_range first count => first % 16 = 0 ∧ count % 16 = 0 ∧ first + count ≤ cap

/-- Number of non-EMPTY slots in the neighbourhood of `home`. -/
def occupied (t : List Nat) (home : Nat) : Nat :=
  ((walk home).filter (fun i => decide (slot t i ≠ 0))).length

/-- The calls `put(p, h)` for the payloads `p` of a list in turn, all with the
hash argument `h`: the list of (return code, `*data` on return) and the cache
afterwards. -/
def put_seq (hash_mul : List Nat → Nat → Nat) (fuel h : Nat) :
    llsimplecache → List Nat → Res (List (Nat × Nat) × llsimplecache)
  | dbs, [] => Res.ok ([], dbs)
  | dbs, p :: ps =>
    match llsimplecache_put hash_mul fuel dbs p h with
    | Res.ok (r, dbs1, x) =>
      match put_seq hash_mul fuel h dbs1 ps with
      | Res.ok (rs, dbs2) => Res.ok ((r, x) :: rs, dbs2)
      | Res.fault => Res.fault
      | Res.timeout => Res.timeout
    | Res.fault => Res.fault
    | Res.timeout => Res.timeout

/-- A cache of 16 slots without callback holding the table `t` (used for
concrete instances). -/
def cache16 (t : List Nat) : llsimplecache :=
  { cache_size := 16, mask := 15, table := t, cb_delete := none, cb_data := 0 }

/-- A cache of 16 slots with the callback 7 and the context 9 holding the
table `t` (used for concrete instances). -/
def cache16_cb (t : List Nat) : llsimplecache :=
  { cache_size := 16, mask := 15, table := t, cb_delete := some 7, cb_data := 9 }

/-- A hash function that returns `c` on every input (used for concrete
instances). -/
def const_hash (c : Nat) : List Nat → Nat → Nat := fun _ _ => c

/-- The index held by `*cur` after `k` calls `next(&idx, s)` that start from
`idx = s`. -/
def next_n (s : Nat) : Nat → Nat
  | 0 => s
  | k + 1 => (next (next_n s k) s).1

/-- The scan of lines 64-93 as one search, for any payload, 0 included: the
first slot of `slots` that is EMPTY or holds `d` decides, the test for EMPTY
(line 72) coming before the test for `d` (line 79); without such a slot the
slot `home` is traded. -/
def scan_any (t : List Nat) (d home : Nat) (slots : List Nat) : Nat × List Nat × Nat :=
  match slots.find? (fun i => decide (slot t i = EMPTY) || decide (slot t i = d)) with
  | some i => if slot t i = EMPTY then (1, t.set i d, d) else (0, t, d)
  | none => (2, t.set home d, slot t home)

/-- The call of `put` in a state that also holds the log of the callback calls
made so far: lines 53-94 contain no call of `cb_delete`, so the log comes back
as it went in. -/
def put_logged (hash_mul : List Nat → Nat → Nat) (fuel : Nat) (dbs : llsimplecache)
    (data hash : Nat) (log : List CbCall) : Res ((Nat × llsimplecache × Nat) × List CbCall) :=
  match llsimplecache_put hash_mul fuel dbs data hash with
  | Res.ok r => Res.ok (r, log)
  | Res.fault => Res.fault
  | Res.timeout => Res.timeout

/-- The call of `clear` in a state that also holds the log of the callback
calls made so far: the calls of line 150 are appended to the log. -/
def clear_logged (fuel : Nat) (dbs : llsimplecache) (log : List CbCall) :
    Res (llsimplecache × List CbCall) :=
  match llsimplecache_clear fuel dbs with
  | Res.ok (dbs1, tr) => Res.ok (dbs1, log ++ tr)
  | Res.fault => Res.fault
  | Res.timeout => Res.timeout

/-! ## Index arithmetic -/

theorem and_cl_mask (c : Nat) (hc : c < 2 ^ 32) : c &&& CL_MASK = 2 ^ 4 * (c / 2 ^ 4) := by
  apply Nat.eq_of_testBit_eq
  intro i
  have e : CL_MASK = 2 ^ 4 * (2 ^ 28 - 1) := by decide
  rw [Nat.testBit_and, e, Nat.testBit_mul_pow_two, Nat.testBit_mul_pow_two,
    Nat.testBit_two_pow_sub_one, ← Nat.shiftRight_eq_div_pow, Nat.testBit_shiftRight]
  by_cases h4 : i ≥ 4
  · have e2 : 4 + (i - 4) = i := by omega
    rw [e2]
    by_cases h32 : i < 32
    · have : i - 4 < 28 := by omega
      simp [h4, this]
    · have hf : c.testBit i = false :=
        Nat.testBit_eq_false_of_lt
          (lt_of_lt_of_le hc (Nat.pow_le_pow_right (by norm_num) (by omega)))
      simp [hf]
  · simp [h4]

theorem and_cl_mask_r (c : Nat) : c &&& CL_MASK_R = c % 16 := by
  have e : CL_MASK_R = 2 ^ 4 - 1 := by decide
  rw [e, Nat.and_pow_two_sub_one_eq_mod]

/-- The function `next` in plain arithmetic. -/
theorem next_eq (cur last : Nat) (hc : cur < 2 ^ 32) :
    next cur last =
      (cur / 16 * 16 + (cur + 1) % 16, decide (cur / 16 * 16 + (cur + 1) % 16 ≠ last)) := by
  have h1 : (cur &&& CL_MASK) ||| (((cur + 1) % 2 ^ 32) &&& CL_MASK_R)
      = cur / 16 * 16 + (cur + 1) % 16 := by
    rw [and_cl_mask cur hc, and_cl_mask_r]
    have hb : (cur + 1) % 2 ^ 32 % 16 < 2 ^ 4 := by
      have := Nat.mod_lt ((cur + 1) % 2 ^ 32) (by norm_num : 16 > 0)
      norm_num; omega
    rw [← Nat.mul_add_lt_is_or hb]
    norm_num
    omega
  unfold next
  simp only [h1]
  congr 1
  by_cases h : cur / 16 * 16 + (cur + 1) % 16 = last <;> simp [h]

theorem walk_slot_zero (home : Nat) : walk_slot home 0 = home := by
  unfold walk_slot; omega

theorem walk_slot_lt_pow (home k : Nat) (h : home < 2 ^ 32) : walk_slot home k < 2 ^ 32 := by
  unfold walk_slot; norm_num at h ⊢; omega

theorem next_walk_slot (home k : Nat) (h : home < 2 ^ 32) :
    next (walk_slot home k) home =
      (walk_slot home (k + 1), decide (walk_slot home (k + 1) ≠ home)) := by
  rw [next_eq _ _ (walk_slot_lt_pow home k h)]
  have e : walk_slot home k / 16 * 16 + (walk_slot home k + 1) % 16 = walk_slot home (k + 1) := by
    unfold walk_slot; omega
  rw [e]

theorem walk_slot_ne_home (home k : Nat) (h1 : 0 < k) (h2 : k < 16) :
    walk_slot home k ≠ home := by
  unfold walk_slot; omega

theorem walk_slot_inj (home j k : Nat) (hj : j < 16) (hk : k < 16)
    (h : walk_slot home j = walk_slot home k) : j = k := by
  unfold walk_slot at h; omega

/-- The home slot of a valid cache is a 32-bit index inside the table. -/
theorem home_lt (dbs : llsimplecache) (h : Nat) (hwf : WF dbs) :
    h &&& dbs.mask < 2 ^ 32 ∧ h &&& dbs.mask < dbs.cache_size := by
  obtain ⟨⟨k, hk⟩, _, hm, _, _⟩ := hwf
  have hle : h &&& dbs.mask ≤ dbs.mask := Nat.and_le_right
  have hm32 : dbs.mask < 2 ^ 32 := by rw [hm]; exact Nat.mod_lt _ (by norm_num)
  refine ⟨lt_of_le_of_lt hle hm32, ?_⟩
  by_cases hk32 : k ≤ 32
  · have hp : (2:Nat) ^ k ≤ 2 ^ 32 := Nat.pow_le_pow_right (by norm_num) hk32
    have hpos : 0 < (2:Nat) ^ k := Nat.pow_pos (by norm_num)
    have : dbs.mask = 2 ^ k - 1 := by
      rw [hm, hk]; exact Nat.mod_eq_of_lt (by omega)
    rw [this, Nat.and_pow_two_sub_one_eq_mod, hk]
    exact Nat.mod_lt _ hpos
  · have hp : (2:Nat) ^ 32 < 2 ^ k := Nat.pow_lt_pow_right (by norm_num) (by omega)
    rw [hk]; omega

/-- Every slot of the walk of a valid cache lies inside the table. -/
theorem walk_slot_lt (dbs : llsimplecache) (home k : Nat) (hwf : WF dbs)
    (hh : home < dbs.cache_size) : walk_slot home k < dbs.table.length := by
  obtain ⟨⟨n, hn⟩, h16, _, hlen, _⟩ := hwf
  rw [hlen]
  have h4 : 4 ≤ n := by
    by_contra hc
    have : (2:Nat) ^ n ≤ 2 ^ 3 := Nat.pow_le_pow_right (by norm_num) (by omega)
    omega
  obtain ⟨m, rfl⟩ : ∃ m, n = 4 + m := ⟨n - 4, by omega⟩
  rw [pow_add] at hn
  generalize (2:Nat) ^ m = M at hn
  unfold walk_slot
  omega

/-! ## The scan of `put` against the reference scan -/

theorem getElem?_eq_slot (t : List Nat) (i : Nat) (h : i < t.length) :
    t[i]? = some (slot t i) := by
  simp [slot, List.getD_eq_getElem?_getD, List.getElem?_eq_getElem h]

theorem slot_set (t : List Nat) (i d j : Nat) :
    slot (t.set i d) j = if i = j ∧ i < t.length then d else slot t j := by
  simp only [slot, List.getD_eq_getElem?_getD, List.getElem?_set]
  by_cases h1 : i = j
  · subst h1
    by_cases h2 : i < t.length
    · simp [h2]
    · simp [h2, List.getElem?_eq_none (Nat.le_of_not_lt h2)]
  · simp [h1]

theorem slot_set_same (t : List Nat) (i d : Nat) (h : i < t.length) :
    slot (t.set i d) i = d := by
  simp [slot_set, h]

theorem slot_set_ne_zero (t : List Nat) (i d j : Nat) (hd : d ≠ 0) (h : slot t j ≠ 0) :
    slot (t.set i d) j ≠ 0 := by
  rw [slot_set]
  split <;> assumption

theorem cas_same (t : List Nat) (i new : Nat) (h : i < t.length) :
    cas t i (slot t i) new = (true, t.set i new) := by
  simp [cas, getElem?_eq_slot t i h]

/-- The claim loop trades the bucket at its first iteration when the bucket
does not hold `d`. -/
theorem put_claim_eq (d f_idx fuel : Nat) (t : List Nat) (hf : f_idx < t.length)
    (hne : slot t f_idx ≠ d) :
    put_claim d f_idx (fuel + 1) t = Res.ok (2, t.set f_idx d, slot t f_idx) := by
  simp [put_claim, getElem?_eq_slot t f_idx hf, hne, cas_same t f_idx d hf]

/-- From step `k` of the walk on, the scan loop computes the reference scan
over the remaining slots. -/
theorem put_scan_eq (d home : Nat) (t : List Nat) (hd : d ≠ 0) (hh : home < 2 ^ 32)
    (hb : ∀ j, walk_slot home j < t.length) :
    ∀ (m k fuel : Nat), k + m = 15 → (k = 0 ∨ slot t home ≠ d) → m + 2 ≤ fuel →
      put_scan d home fuel (walk_slot home k) t =
        Res.ok (scan_ref t d home ((List.range' k (m + 1)).map (walk_slot home))) := by
  intro m
  induction m with
  | zero =>
    intro k fuel hk h0 hfuel
    obtain ⟨f, rfl⟩ : ∃ f, fuel = f + 2 := ⟨fuel - 2, by omega⟩
    have hk15 : k = 15 := by omega
    subst hk15
    have hne : slot t home ≠ d := by
      rcases h0 with h | h
      · omega
      · exact h
    have hw16 : walk_slot home (15 + 1) = home := by unfold walk_slot; omega
    by_cases hv0 : slot t (walk_slot home 15) = 0
    · simp [put_scan, scan_ref, getElem?_eq_slot t _ (hb 15), hv0, EMPTY, List.range',
        Ne.symm hd]
      have := cas_same t (walk_slot home 15) d (hb 15)
      rw [hv0] at this
      simp [this]
    · by_cases hvd : slot t (walk_slot home 15) = d
      · simp [put_scan, scan_ref, getElem?_eq_slot t _ (hb 15), hvd, EMPTY, List.range', hd]
      · have hhome : home < t.length := by
          have := hb 0
          rwa [walk_slot_zero] at this
        simp [put_scan, scan_ref, getElem?_eq_slot t _ (hb 15), hv0, hvd, EMPTY, List.range',
          next_walk_slot home 15 hh, hw16, put_claim_eq d home f t hhome hne]
  | succ m ih =>
    intro k fuel hk h0 hfuel
    obtain ⟨f, rfl⟩ : ∃ f, fuel = f + 1 := ⟨fuel - 1, by omega⟩
    by_cases hv0 : slot t (walk_slot home k) = 0
    · simp [put_scan, scan_ref, getElem?_eq_slot t _ (hb k), hv0, EMPTY, List.range',
        Ne.symm hd]
      have := cas_same t (walk_slot home k) d (hb k)
      rw [hv0] at this
      simp [this]
    · by_cases hvd : slot t (walk_slot home k) = d
      · simp [put_scan, scan_ref, getElem?_eq_slot t _ (hb k), hvd, EMPTY, List.range', hd]
      · have hne : walk_slot home (k + 1) ≠ home :=
          walk_slot_ne_home home (k + 1) (by omega) (by omega)
        have h0k : k + 1 = 0 ∨ slot t home ≠ d := by
          right
          rcases h0 with h | h
          · subst h; rwa [walk_slot_zero] at hvd
          · exact h
        have := ih (k + 1) f (by omega) h0k (by omega)
        simp [put_scan, getElem?_eq_slot t _ (hb k), hv0, hvd, EMPTY,
          next_walk_slot home k hh, hne, this]
        simp [scan_ref, List.range', hv0, hvd, EMPTY]

/-- With 17 units of fuel or more, `put` on a valid cache returns the value of
the reference definition at the hash computed by lines 55-56. -/
theorem put_eq_ref (hash_mul : List Nat → Nat → Nat) (fuel : Nat) (dbs : llsimplecache)
    (d h : Nat) (hwf : WF dbs) (hd : d ≠ 0) (hfuel : 17 ≤ fuel) :
    llsimplecache_put hash_mul fuel dbs d h = Res.ok (put_ref dbs d (put_hash hash_mul d h)) := by
  obtain ⟨h32, hlt⟩ := home_lt dbs (put_hash hash_mul d h) hwf
  have hb : ∀ j, walk_slot (put_hash hash_mul d h &&& dbs.mask) j < dbs.table.length :=
    fun j => walk_slot_lt dbs _ j hwf hlt
  have := put_scan_eq d (put_hash hash_mul d h &&& dbs.mask) dbs.table hd h32 hb 15 0 fuel
    (by omega) (Or.inl rfl) (by omega)
  rw [walk_slot_zero] at this
  simp only [llsimplecache_put, this, put_ref, walk, List.range_eq_range']

theorem put_hash_of_ne_zero (hash_mul : List Nat → Nat → Nat) (d h : Nat) (hh : h ≠ 0) :
    put_hash hash_mul d h = h := by
  simp [put_hash, hh]

/-- The hash used for the hash argument 0: the low 32 bits of the external
hash of the payload, or 1 if those are 0. -/
theorem put_hash_zero (hash_mul : List Nat → Nat → Nat) (d : Nat) :
    put_hash hash_mul d 0 =
      if hash_mul (word_bytes d) 4 % 2 ^ 32 = 0 then 1
        else hash_mul (word_bytes d) 4 % 2 ^ 32 := by
  simp only [put_hash, if_true]
  by_cases hz : hash_mul (word_bytes d) 4 % 2 ^ 32 = 0
  · rw [if_pos hz, if_pos hz, hz]
    decide
  · rw [if_neg hz, if_neg hz]

/-- Search of the first hit among `f k, f (k+1), ..., f (k+n-1)`. -/
theorem find_range_cases (p : Nat → Bool) (f : Nat → Nat) :
    ∀ (n k : Nat),
      (∃ i, k ≤ i ∧ i < k + n ∧ (∀ j, k ≤ j → j < i → p (f j) = false) ∧ p (f i) = true ∧
          ((List.range' k n).map f).find? p = some (f i)) ∨
      ((∀ j, k ≤ j → j < k + n → p (f j) = false) ∧
          ((List.range' k n).map f).find? p = none) := by
  intro n
  induction n with
  | zero =>
    intro k
    right
    exact ⟨fun j h1 h2 => by omega, by simp⟩
  | succ n ih =>
    intro k
    by_cases hp : p (f k) = true
    · left
      exact ⟨k, le_refl k, by omega, fun j h1 h2 => by omega, hp, by simp [List.range', hp]⟩
    · have hpf : p (f k) = false := by simpa using hp
      rcases ih (k + 1) with ⟨i, h1, h2, h3, h4, h5⟩ | ⟨h1, h2⟩
      · left
        refine ⟨i, by omega, by omega, ?_, h4, by simp [List.range', hpf, h5]⟩
        intro j hj1 hj2
        by_cases hjk : j = k
        · subst hjk; exact hpf
        · exact h3 j (by omega) hj2
      · right
        refine ⟨?_, by simp [List.range', hpf, h2]⟩
        intro j hj1 hj2
        by_cases hjk : j = k
        · subst hjk; exact hpf
        · exact h1 j (by omega) (by omega)

/-- The three outcomes of the reference scan over a whole neighbourhood. -/
theorem scan_ref_cases (t : List Nat) (d home : Nat) :
    (∃ k, k < 16 ∧
        (∀ j, j < k → slot t (walk_slot home j) ≠ 0 ∧ slot t (walk_slot home j) ≠ d) ∧
        slot t (walk_slot home k) = d ∧ scan_ref t d home (walk home) = (0, t, d)) ∨
    (∃ k, k < 16 ∧
        (∀ j, j < k → slot t (walk_slot home j) ≠ 0 ∧ slot t (walk_slot home j) ≠ d) ∧
        slot t (walk_slot home k) = 0 ∧
        scan_ref t d home (walk home) = (1, t.set (walk_slot home k) d, d)) ∨
    ((∀ j, j < 16 → slot t (walk_slot home j) ≠ 0 ∧ slot t (walk_slot home j) ≠ d) ∧
        scan_ref t d home (walk home) = (2, t.set home d, slot t home)) := by
  rcases find_range_cases (fun i => decide (slot t i = EMPTY) || decide (slot t i = d))
      (walk_slot home) 16 0 with ⟨i, _, h2, h3, h4, h5⟩ | ⟨h1, h2⟩
  · have hpre : ∀ j, j < i →
        slot t (walk_slot home j) ≠ 0 ∧ slot t (walk_slot home j) ≠ d := by
      intro j hj
      have := h3 j (Nat.zero_le j) hj
      simpa [EMPTY] using this
    by_cases hv : slot t (walk_slot home i) = d
    · left
      refine ⟨i, by omega, hpre, hv, ?_⟩
      simp only [scan_ref, walk, List.range_eq_range', h5]
      simp [hv]
    · right; left
      have h0 : slot t (walk_slot home i) = 0 := by
        simpa [EMPTY, hv] using h4
      refine ⟨i, by omega, hpre, h0, ?_⟩
      simp only [scan_ref, walk, List.range_eq_range', h5]
      simp [hv]
  · right; right
    refine ⟨?_, ?_⟩
    · intro j hj
      have := h1 j (Nat.zero_le j) (by omega)
      simpa [EMPTY] using this
    · simp only [scan_ref, walk, List.range_eq_range', h2]

/-! ## The three outcomes of `put` -/

theorem wf_set (dbs : llsimplecache) (i d : Nat) (hwf : WF dbs) :
    WF (with_table dbs (dbs.table.set i d)) := by
  obtain ⟨h1, h2, h3, h4, h5⟩ := hwf
  exact ⟨h1, h2, h3, by simpa [with_table] using h4, h5⟩

/-- The three outcomes of `put` on a valid cache: Found at step `k` of the
walk, InsertedEmpty at step `k`, or InsertedEvicted at the home slot. -/
theorem put_cases (hash_mul : List Nat → Nat → Nat) (fuel : Nat) (dbs : llsimplecache)
    (d h : Nat) (hwf : WF dbs) (hd : d ≠ 0) (hfuel : 17 ≤ fuel) :
    (∃ k, k < 16 ∧ scanned dbs.table d (put_hash hash_mul d h &&& dbs.mask) k ∧
        slot dbs.table (walk_slot (put_hash hash_mul d h &&& dbs.mask) k) = d ∧
        llsimplecache_put hash_mul fuel dbs d h = Res.ok (0, dbs, d)) ∨
    (∃ k, k < 16 ∧ scanned dbs.table d (put_hash hash_mul d h &&& dbs.mask) k ∧
        slot dbs.table (walk_slot (put_hash hash_mul d h &&& dbs.mask) k) = 0 ∧
        llsimplecache_put hash_mul fuel dbs d h =
          Res.ok (1, with_table dbs
            (dbs.table.set (walk_slot (put_hash hash_mul d h &&& dbs.mask) k) d), d)) ∨
    (scanned dbs.table d (put_hash hash_mul d h &&& dbs.mask) 16 ∧
        llsimplecache_put hash_mul fuel dbs d h =
          Res.ok (2, with_table dbs (dbs.table.set (put_hash hash_mul d h &&& dbs.mask) d),
            slot dbs.table (put_hash hash_mul d h &&& dbs.mask))) := by
  rw [put_eq_ref hash_mul fuel dbs d h hwf hd hfuel]
  rcases scan_ref_cases dbs.table d (put_hash hash_mul d h &&& dbs.mask) with
    ⟨k, h1, h2, h3, h4⟩ | ⟨k, h1, h2, h3, h4⟩ | ⟨h1, h2⟩
  · left
    exact ⟨k, h1, h2, h3, by simp only [put_ref, h4]; rfl⟩
  · right; left
    exact ⟨k, h1, h2, h3, by simp only [put_ref, h4]⟩
  · right; right
    exact ⟨h1, by simp only [put_ref, h2]⟩

/-- If the walk reaches a copy of `v` before any EMPTY slot, `put` returns
Found and changes nothing. -/
theorem put_found_of_chain (hash_mul : List Nat → Nat → Nat) (fuel : Nat)
    (dbs : llsimplecache) (v h k : Nat) (hwf : WF dbs) (hv : v ≠ 0) (hfuel : 17 ≤ fuel)
    (hk : k < 16)
    (hat : slot dbs.table (walk_slot (put_hash hash_mul v h &&& dbs.mask) k) = v)
    (hpre : ∀ j, j < k → slot dbs.table (walk_slot (put_hash hash_mul v h &&& dbs.mask) j) ≠ 0) :
    llsimplecache_put hash_mul fuel dbs v h = Res.ok (0, dbs, v) := by
  rcases put_cases hash_mul fuel dbs v h hwf hv hfuel with
    ⟨_, _, _, _, h4⟩ | ⟨k1, h1, h2, h3, _⟩ | ⟨h1, _⟩
  · exact h4
  · exfalso
    rcases Nat.lt_trichotomy k1 k with hlt | heq | hgt
    · exact hpre k1 hlt h3
    · subst heq; rw [hat] at h3; exact hv h3
    · exact (h2 k hgt).2 hat
  · exfalso
    exact (h1 k hk).2 hat

/-- If the walk reaches an EMPTY slot at step `k` behind slots that are neither
EMPTY nor `d`, `put` stores `d` there and returns InsertedEmpty. -/
theorem put_insert_of_scanned (hash_mul : List Nat → Nat → Nat) (fuel : Nat)
    (dbs : llsimplecache) (d h k : Nat) (hwf : WF dbs) (hd : d ≠ 0) (hfuel : 17 ≤ fuel)
    (hk : k < 16) (hpre : scanned dbs.table d (put_hash hash_mul d h &&& dbs.mask) k)
    (hat : slot dbs.table (walk_slot (put_hash hash_mul d h &&& dbs.mask) k) = 0) :
    llsimplecache_put hash_mul fuel dbs d h =
      Res.ok (1, with_table dbs
        (dbs.table.set (walk_slot (put_hash hash_mul d h &&& dbs.mask) k) d), d) := by
  rcases put_cases hash_mul fuel dbs d h hwf hd hfuel with
    ⟨k1, _, h2, h3, _⟩ | ⟨k1, _, h2, h3, h4⟩ | ⟨h1, _⟩
  · exfalso
    rcases Nat.lt_trichotomy k1 k with hlt | heq | hgt
    · exact (hpre k1 hlt).2 h3
    · subst heq; rw [hat] at h3; exact hd h3.symm
    · exact (h2 k hgt).1 hat
  · rcases Nat.lt_trichotomy k1 k with hlt | heq | hgt
    · exact absurd h3 (hpre k1 hlt).1
    · subst heq; exact h4
    · exact absurd hat (h2 k hgt).1
  · exact absurd hat (h1 k hk).1

/-- If no slot of the neighbourhood is EMPTY or holds `d`, `put` stores `d` in
the home slot and returns InsertedEvicted with the previous content. -/
theorem put_evict_of_full (hash_mul : List Nat → Nat → Nat) (fuel : Nat)
    (dbs : llsimplecache) (d h : Nat) (hwf : WF dbs) (hd : d ≠ 0) (hfuel : 17 ≤ fuel)
    (hfull : scanned dbs.table d (put_hash hash_mul d h &&& dbs.mask) 16) :
    llsimplecache_put hash_mul fuel dbs d h =
      Res.ok (2, with_table dbs (dbs.table.set (put_hash hash_mul d h &&& dbs.mask) d),
        slot dbs.table (put_hash hash_mul d h &&& dbs.mask)) := by
  rcases put_cases hash_mul fuel dbs d h hwf hd hfuel with
    ⟨k1, h1, _, h3, _⟩ | ⟨k1, h1, _, h3, _⟩ | ⟨_, h2⟩
  · exact absurd h3 (hfull k1 h1).2
  · exact absurd h3 (hfull k1 h1).1
  · exact h2

/-- A `put` that returns InsertedEvicted found the neighbourhood full and
traded the home slot. -/
theorem put_evicted_inv (hash_mul : List Nat → Nat → Nat) (fuel : Nat)
    (dbs : llsimplecache) (d h : Nat) (dbs1 : llsimplecache) (x : Nat) (hwf : WF dbs)
    (hd : d ≠ 0) (hfuel : 17 ≤ fuel)
    (hput : llsimplecache_put hash_mul fuel dbs d h = Res.ok (2, dbs1, x)) :
    scanned dbs.table d (put_hash hash_mul d h &&& dbs.mask) 16 ∧
      dbs1 = with_table dbs (dbs.table.set (put_hash hash_mul d h &&& dbs.mask) d) ∧
      x = slot dbs.table (put_hash hash_mul d h &&& dbs.mask) := by
  rcases put_cases hash_mul fuel dbs d h hwf hd hfuel with
    ⟨_, _, _, _, h4⟩ | ⟨_, _, _, _, h4⟩ | ⟨h1, h2⟩
  · rw [h4] at hput; injection hput with e; injection e with e; omega
  · rw [h4] at hput; injection hput with e; injection e with e; omega
  · rw [h2] at hput
    injection hput with e
    injection e with _ e
    injection e with e1 e2
    exact ⟨h1, e1.symm, e2.symm⟩

/-- The state after any `put` of a non-zero payload on a valid cache is valid. -/
theorem put_wf (hash_mul : List Nat → Nat → Nat) (fuel : Nat) (dbs : llsimplecache)
    (d h : Nat) (hwf : WF dbs) (hd : d ≠ 0) (hfuel : 17 ≤ fuel) :
    ∃ r dbs1 x, llsimplecache_put hash_mul fuel dbs d h = Res.ok (r, dbs1, x) ∧ WF dbs1 := by
  rcases put_cases hash_mul fuel dbs d h hwf hd hfuel with
    ⟨_, _, _, _, h4⟩ | ⟨_, _, _, _, h4⟩ | ⟨_, h2⟩
  · exact ⟨_, _, _, h4, hwf⟩
  · exact ⟨_, _, _, h4, wf_set dbs _ d hwf⟩
  · exact ⟨_, _, _, h2, wf_set dbs _ d hwf⟩

/-- The state after a sequence of `put` calls of non-zero payloads on a valid
cache is valid. -/
theorem run_puts_wf (hash_mul : List Nat → Nat → Nat) (fuel : Nat) (hfuel : 17 ≤ fuel) :
    ∀ (ops : List Op) (dbs dbs1 : llsimplecache), WF dbs →
      (∀ op ∈ ops, ∃ p q, p ≠ 0 ∧ op = Op.put p q) →
      run hash_mul fuel dbs ops = Res.ok dbs1 → WF dbs1 := by
  intro ops
  induction ops with
  | nil =>
    intro dbs dbs1 hwf _ hrun
    simp only [run] at hrun
    injection hrun with e
    rw [← e]; exact hwf
  | cons op ops ih =>
    intro dbs dbs1 hwf hops hrun
    obtain ⟨p, q, hp, rfl⟩ := hops op (List.mem_cons_self op ops)
    obtain ⟨r, dbs2, x, e, hwf2⟩ := put_wf hash_mul fuel dbs p q hwf hp hfuel
    simp only [run, step, e] at hrun
    exact ih dbs2 dbs1 hwf2 (fun o ho => hops o (List.mem_cons_of_mem _ ho)) hrun

/-! ## Creation -/

/-- The value of `next_pow2` above 2 is zero or a power of two below `2 ^ 32`. -/
theorem next_pow2_shape (x : Nat) (hx : 2 < x) :
    next_pow2 x = 0 ∨ ∃ k, k < 32 ∧ next_pow2 x = 2 ^ k := by
  have hx2 : ¬ x ≤ 2 := by omega
  simp only [next_pow2, hx2, if_false, Nat.shiftLeft_eq, Nat.shiftRight_eq_div_pow, one_mul]
  generalize clz (x - 1) = c
  rcases Nat.lt_trichotomy c 0 with h | h | h
  · omega
  · left; subst h; norm_num
  · by_cases hc : c ≤ 32
    · right
      refine ⟨32 - c, by omega, ?_⟩
      rw [Nat.pow_div hc (by norm_num)]
      apply Nat.mod_eq_of_lt
      exact Nat.pow_lt_pow_right (by norm_num) (by omega)
    · left
      have : (2:Nat) ^ 32 < 2 ^ c := Nat.pow_lt_pow_right (by norm_num) (by omega)
      rw [Nat.div_eq_of_lt this, Nat.zero_mod]

/-- A created cache is valid, has capacity at most `2 ^ 31`, keeps the
callback arguments and has all its slots EMPTY. -/
theorem create_wf (c : Nat) (cb : Option Nat) (ctx : Nat) (dbs : llsimplecache)
    (h : llsimplecache_create c cb ctx = some dbs) :
    WF dbs ∧ dbs.cache_size ≤ 2 ^ 31 ∧ dbs.table = List.replicate dbs.cache_size 0 ∧
      dbs.cb_delete = cb ∧ dbs.cb_data = ctx := by
  unfold llsimplecache_create at h
  simp only at h
  generalize hc1 : (if c < HASH_PER_CL then HASH_PER_CL else c) = c1 at h
  have h16 : 16 ≤ c1 := by
    rw [← hc1]
    have : HASH_PER_CL = 16 := by decide
    split <;> omega
  split at h
  · rename_i hnp
    injection h with h
    subst h
    have hbig : 2 < c1 % 2 ^ 32 := by
      by_contra hcon
      have : next_pow2 (c1 % 2 ^ 32) = c1 % 2 ^ 32 := by
        unfold next_pow2
        rw [if_pos (Nat.le_of_not_lt hcon)]
      omega
    rcases next_pow2_shape (c1 % 2 ^ 32) hbig with h0 | ⟨k, hk, hp⟩
    · omega
    · have hc : c1 = 2 ^ k := by rw [← hnp, hp]
      have hle : (2:Nat) ^ k ≤ 2 ^ 31 := Nat.pow_le_pow_right (by norm_num) (by omega)
      have h64 : (2:Nat) ^ 31 < 2 ^ 64 := by norm_num
      exact ⟨⟨⟨k, hc⟩, h16, rfl, by simp, by show c1 < 2 ^ 64; omega⟩,
        by show c1 ≤ 2 ^ 31; omega, rfl, rfl, rfl⟩
  · exact absurd h (by simp)

/-! ## Clearing -/

/-- The plain clearing loop zeroes the slots `i, ..., i + n - 1` and nothing
else. -/
theorem clear_plain_eq :
    ∀ (n fuel : Nat) (t : List Nat) (i : Nat), i + n ≤ t.length → n + 1 ≤ fuel →
      ∃ t1, clear_plain fuel t i (i + n) = Res.ok t1 ∧ t1.length = t.length ∧
        ∀ j, slot t1 j = if i ≤ j ∧ j < i + n then 0 else slot t j := by
  intro n
  induction n with
  | zero =>
    intro fuel t i _ hfuel
    obtain ⟨f, rfl⟩ : ∃ f, fuel = f + 1 := ⟨fuel - 1, by omega⟩
    refine ⟨t, by simp [clear_plain], rfl, ?_⟩
    intro j
    have : ¬ (i ≤ j ∧ j < i + 0) := by omega
    rw [if_neg this]
  | succ n ih =>
    intro fuel t i hlen hfuel
    obtain ⟨f, rfl⟩ : ∃ f, fuel = f + 1 := ⟨fuel - 1, by omega⟩
    obtain ⟨t1, h1, h2, h3⟩ := ih f (t.set i 0) (i + 1) (by simp; omega) (by omega)
    have hi : i < t.length := by omega
    have he : i + 1 + n = i + (n + 1) := by omega
    rw [he] at h1
    refine ⟨t1, by simp [clear_plain, hi, h1], by simpa using h2, ?_⟩
    intro j
    rw [h3 j, slot_set]
    by_cases hj : i = j
    · subst hj; simp [hi]
    · have e1 : (i + 1 ≤ j ∧ j < i + 1 + n) ↔ (i ≤ j ∧ j < i + (n + 1)) := by omega
      simp only [e1, hj, false_and, if_false]

/-- The clearing loop with a callback zeroes the slots `i, ..., i + n - 1`,
nothing else, and calls the callback on their non-zero values in order. -/
theorem clear_cb_eq (f ctx : Nat) :
    ∀ (n fuel : Nat) (t : List Nat) (i : Nat) (tr : List CbCall),
      i + n ≤ t.length → n + 1 ≤ fuel →
      ∃ t1, clear_cb f ctx fuel t i (i + n) tr =
          Res.ok (t1, tr ++ release_calls f ctx ((t.drop i).take n)) ∧
        t1.length = t.length ∧
        ∀ j, slot t1 j = if i ≤ j ∧ j < i + n then 0 else slot t j := by
  intro n
  induction n with
  | zero =>
    intro fuel t i tr _ hfuel
    obtain ⟨g, rfl⟩ : ∃ g, fuel = g + 1 := ⟨fuel - 1, by omega⟩
    refine ⟨t, by simp [clear_cb, release_calls], rfl, ?_⟩
    intro j
    have : ¬ (i ≤ j ∧ j < i + 0) := by omega
    rw [if_neg this]
  | succ n ih =>
    intro fuel t i tr hlen hfuel
    obtain ⟨g, rfl⟩ : ∃ g, fuel = g + 1 := ⟨fuel - 1, by omega⟩
    have hi : i < t.length := by omega
    have he : i + 1 + n = i + (n + 1) := by omega
    have hlt : i < i + (n + 1) := by omega
    have hdrop : (t.drop i).take (n + 1) = slot t i :: (t.drop (i + 1)).take n := by
      rw [List.drop_eq_getElem_cons hi, List.take_succ_cons]
      simp [slot, List.getD_eq_getElem?_getD, List.getElem?_eq_getElem hi]
    by_cases hv : slot t i = 0
    · obtain ⟨t1, h1, h2, h3⟩ := ih g t (i + 1) tr (by omega) (by omega)
      rw [he] at h1
      refine ⟨t1, ?_, h2, ?_⟩
      · simp [clear_cb, hlt, getElem?_eq_slot t i hi, hv, h1, hdrop, release_calls]
      · intro j
        rw [h3 j]
        by_cases hj : i = j
        · subst hj; simp [hv]
        · have e1 : (i + 1 ≤ j ∧ j < i + 1 + n) ↔ (i ≤ j ∧ j < i + (n + 1)) := by omega
          simp only [e1]
    · obtain ⟨t1, h1, h2, h3⟩ :=
        ih g (t.set i 0) (i + 1) (tr ++ [(f, ctx, slot t i)]) (by simp; omega) (by omega)
      rw [he] at h1
      refine ⟨t1, ?_, by simpa using h2, ?_⟩
      · simp [clear_cb, hlt, getElem?_eq_slot t i hi, hv, cas_same t i 0 hi, h1, hdrop,
          release_calls, List.drop_set_of_lt]
      · intro j
        rw [h3 j, slot_set]
        by_cases hj : i = j
        · subst hj; simp [hi]
        · have e1 : (i + 1 ≤ j ∧ j < i + 1 + n) ↔ (i ≤ j ∧ j < i + (n + 1)) := by omega
          simp only [e1, hj, false_and, if_false]

/-- The call `clear_partial(first, count)` on a range inside the table: the
slots of the range are zeroed, the others kept, and the callback, if any, is
called on the non-zero values of the range in slot order. -/
theorem clear_partial_eq (fuel : Nat) (dbs : llsimplecache) (first count : Nat)
    (hlen : dbs.table.length = dbs.cache_size) (h64 : dbs.cache_size < 2 ^ 64)
    (hr : first + count ≤ dbs.cache_size) (hfuel : count + 1 ≤ fuel) :
    ∃ t1, llsimplecache_clear_partial fuel dbs first count =
        Res.ok (with_table dbs t1,
          match dbs.cb_delete with
          | none => []
          | some f => release_calls f dbs.cb_data ((dbs.table.drop first).take count)) ∧
      t1.length = dbs.table.length ∧
      ∀ j, slot t1 j = if first ≤ j ∧ j < first + count then 0 else slot dbs.table j := by
  have he : (first + count) % 2 ^ 64 = first + count := Nat.mod_eq_of_lt (by omega)
  unfold llsimplecache_clear_partial
  simp only [he]
  cases hcb : dbs.cb_delete with
  | none =>
    obtain ⟨t1, h1, h2, h3⟩ := clear_plain_eq count fuel dbs.table first (by omega) hfuel
    exact ⟨t1, by simp only [h1], h2, h3⟩
  | some f =>
    obtain ⟨t1, h1, h2, h3⟩ :=
      clear_cb_eq f dbs.cb_data count fuel dbs.table first [] (by omega) hfuel
    exact ⟨t1, by simp only [h1, List.nil_append], h2, h3⟩

/-- A value among `count` slots from `first` on is the content of a slot of
that range. -/
theorem mem_range_slots (t : List Nat) (first count v : Nat)
    (hv : v ∈ (t.drop first).take count) :
    ∃ j, first ≤ j ∧ j < first + count ∧ slot t j = v := by
  obtain ⟨n, hn, e⟩ := List.mem_iff_getElem.mp hv
  have hn2 : n < count := by
    simp only [List.length_take, List.length_drop] at hn
    omega
  have e2 : ((t.drop first).take count)[n]? = some v := by
    rw [List.getElem?_eq_getElem hn, e]
  rw [List.getElem?_take_of_lt hn2, List.getElem?_drop] at e2
  exact ⟨first + n, by omega, by omega, by simp [slot, List.getD_eq_getElem?_getD, e2]⟩

/-- A list all of whose slots read 0 is a list of zeros. -/
theorem eq_replicate_of_slots (t : List Nat) (n : Nat) (hlen : t.length = n)
    (hz : ∀ j, slot t j = 0) : t = List.replicate n 0 := by
  rw [List.eq_replicate_iff]
  refine ⟨hlen, fun b hb => ?_⟩
  obtain ⟨i, hi, e⟩ := List.mem_iff_getElem.mp hb
  have := hz i
  simp only [slot, List.getD_eq_getElem?_getD, List.getElem?_eq_getElem hi,
    Option.getD_some] at this
  rw [← e, this]

/-! ## Invariants of reachable states -/

/-- Storing a new payload at step `k` of its walk, behind non-EMPTY slots only,
keeps the chain invariant and the absence of duplicates. -/
theorem inv_set (eff : Nat → Nat) (dbs : llsimplecache) (d k : Nat) (hd : d ≠ 0)
    (hk : k < 16) (hlen : walk_slot (eff d &&& dbs.mask) k < dbs.table.length)
    (hpre : ∀ j, j < k → slot dbs.table (walk_slot (eff d &&& dbs.mask) j) ≠ 0)
    (hnew : ∀ i, i < dbs.table.length → slot dbs.table i ≠ d)
    (hinv : chain_inv eff dbs) (hnd : no_dup dbs.table) :
    chain_inv eff (with_table dbs (dbs.table.set (walk_slot (eff d &&& dbs.mask) k) d)) ∧
      no_dup (dbs.table.set (walk_slot (eff d &&& dbs.mask) k) d) := by
  constructor
  · intro i hi hne
    simp only [with_table, List.length_set] at hi hne ⊢
    by_cases his : walk_slot (eff d &&& dbs.mask) k = i
    · have hval : slot (dbs.table.set (walk_slot (eff d &&& dbs.mask) k) d) i = d := by
        rw [← his]; exact slot_set_same _ _ _ hlen
      rw [hval]
      exact ⟨k, hk, his, fun j hj => slot_set_ne_zero _ _ _ _ hd (hpre j hj)⟩
    · have hval : slot (dbs.table.set (walk_slot (eff d &&& dbs.mask) k) d) i
          = slot dbs.table i := by
        rw [slot_set]; simp [his]
      rw [hval] at hne ⊢
      obtain ⟨k1, h1, h2, h3⟩ := hinv i hi hne
      exact ⟨k1, h1, h2, fun j hj => slot_set_ne_zero _ _ _ _ hd (h3 j hj)⟩
  · intro i j hi hj hne heq
    simp only [List.length_set] at hi hj
    have hv : ∀ x, slot (dbs.table.set (walk_slot (eff d &&& dbs.mask) k) d) x =
        if walk_slot (eff d &&& dbs.mask) k = x then d else slot dbs.table x := by
      intro x
      rw [slot_set]
      simp [hlen]
    rw [hv i] at hne heq
    rw [hv j] at heq
    by_cases his : walk_slot (eff d &&& dbs.mask) k = i
    · by_cases hjs : walk_slot (eff d &&& dbs.mask) k = j
      · rw [← his, ← hjs]
      · rw [if_pos his, if_neg hjs] at heq
        exact absurd heq.symm (hnew j hj)
    · by_cases hjs : walk_slot (eff d &&& dbs.mask) k = j
      · rw [if_neg his, if_pos hjs] at heq
        exact absurd heq (hnew i hi)
      · rw [if_neg his, if_neg hjs] at heq
        rw [if_neg his] at hne
        exact hnd i j hi hj hne heq

/-- A `put` whose hash is the fixed function `g` of the payload keeps validity,
the chain invariant and the absence of duplicates. -/
theorem put_preserves_inv (hash_mul : List Nat → Nat → Nat) (g : Nat → Nat) (fuel : Nat)
    (dbs : llsimplecache) (d : Nat) (hwf : WF dbs) (hd : d ≠ 0) (hfuel : 17 ≤ fuel)
    (hinv : chain_inv (fun x => put_hash hash_mul x (g x)) dbs) (hnd : no_dup dbs.table) :
    ∃ r dbs1 x, llsimplecache_put hash_mul fuel dbs d (g d) = Res.ok (r, dbs1, x) ∧
      WF dbs1 ∧ dbs1.cache_size = dbs.cache_size ∧
      chain_inv (fun x => put_hash hash_mul x (g x)) dbs1 ∧ no_dup dbs1.table := by
  have hhome := home_lt dbs (put_hash hash_mul d (g d)) hwf
  rcases put_cases hash_mul fuel dbs d (g d) hwf hd hfuel with
    ⟨k, _, _, _, h4⟩ | ⟨k, h1, h2, h3, h4⟩ | ⟨h1, h2⟩
  · exact ⟨0, dbs, d, h4, hwf, rfl, hinv, hnd⟩
  · have hnew : ∀ i, i < dbs.table.length → slot dbs.table i ≠ d := by
      intro i hi hval
      obtain ⟨k1, _, hk2, hk3⟩ := hinv i hi (by rw [hval]; exact hd)
      simp only [hval] at hk2 hk3
      rcases Nat.lt_trichotomy k1 k with hlt | heq | hgt
      · exact (h2 k1 hlt).2 (by rw [hk2]; exact hval)
      · subst heq; rw [hk2, hval] at h3; exact hd h3
      · exact hk3 k hgt h3
    have := inv_set (fun x => put_hash hash_mul x (g x)) dbs d k hd h1
      (walk_slot_lt dbs _ k hwf hhome.2) (fun j hj => (h2 j hj).1) hnew hinv hnd
    exact ⟨1, _, d, h4, wf_set dbs _ d hwf, rfl, this.1, this.2⟩
  · have hnew : ∀ i, i < dbs.table.length → slot dbs.table i ≠ d := by
      intro i hi hval
      obtain ⟨k1, hk1, hk2, _⟩ := hinv i hi (by rw [hval]; exact hd)
      simp only [hval] at hk2
      exact (h1 k1 hk1).2 (by rw [hk2]; exact hval)
    have := inv_set (fun x => put_hash hash_mul x (g x)) dbs d 0 hd (by decide)
      (walk_slot_lt dbs _ 0 hwf hhome.2) (fun j hj => absurd hj (Nat.not_lt_zero j))
      hnew hinv hnd
    simp only [walk_slot_zero] at this
    exact ⟨2, _, _, h2, wf_set dbs _ d hwf, rfl, this.1, this.2⟩

/-- A range clear over whole neighbourhoods keeps validity, the chain invariant
and the absence of duplicates. -/
theorem clear_preserves_inv (eff : Nat → Nat) (fuel : Nat) (dbs : llsimplecache)
    (first count : Nat) (hwf : WF dbs) (h1 : first % 16 = 0) (h2 : count % 16 = 0)
    (hr : first + count ≤ dbs.cache_size) (hfuel : count + 1 ≤ fuel)
    (hinv : chain_inv eff dbs) (hnd : no_dup dbs.table) :
    ∃ dbs1 tr, llsimplecache_clear_partial fuel dbs first count = Res.ok (dbs1, tr) ∧
      WF dbs1 ∧ dbs1.cache_size = dbs.cache_size ∧ chain_inv eff dbs1 ∧ no_dup dbs1.table := by
  obtain ⟨t1, e1, e2, e3⟩ :=
    clear_partial_eq fuel dbs first count hwf.2.2.2.1 hwf.2.2.2.2 hr hfuel
  refine ⟨with_table dbs t1, _, e1, ?_, rfl, ?_, ?_⟩
  · obtain ⟨w1, w2, w3, w4, w5⟩ := hwf
    exact ⟨w1, w2, w3, by simpa [with_table] using e2.trans w4, w5⟩
  · intro i hi hne
    simp only [with_table] at hi hne ⊢
    rw [e2] at hi
    rw [e3 i] at hne ⊢
    by_cases hin : first ≤ i ∧ i < first + count
    · rw [if_pos hin] at hne; exact absurd rfl hne
    · rw [if_neg hin] at hne ⊢
      obtain ⟨k, hk, hk2, hk3⟩ := hinv i hi hne
      refine ⟨k, hk, hk2, ?_⟩
      intro j hj
      rw [e3]
      have hout : ¬ (first ≤ walk_slot (eff (slot dbs.table i) &&& dbs.mask) j ∧
          walk_slot (eff (slot dbs.table i) &&& dbs.mask) j < first + count) := by
        revert hk2
        generalize eff (slot dbs.table i) &&& dbs.mask = home
        unfold walk_slot
        omega
      rw [if_neg hout]
      exact hk3 j hj
  · intro i j hi hj hne heq
    simp only [with_table] at hi hj hne heq
    rw [e2] at hi hj
    rw [e3 i] at hne heq
    rw [e3 j] at heq
    by_cases hin : first ≤ i ∧ i < first + count
    · rw [if_pos hin] at hne; exact absurd rfl hne
    · rw [if_neg hin] at hne heq
      by_cases hjn : first ≤ j ∧ j < first + count
      · rw [if_pos hjn] at heq; exact absurd heq hne
      · rw [if_neg hjn] at heq
        exact hnd i j hi hj hne heq

/-- Every operation allowed by `op_ok` returns and keeps the invariants. -/
theorem step_preserves_inv (hash_mul : List Nat → Nat → Nat) (g : Nat → Nat) (fuel : Nat)
    (dbs : llsimplecache) (op : Op) (hwf : WF dbs) (hop : op_ok g dbs.cache_size op)
    (hfuel : dbs.cache_size + 1 ≤ fuel)
    (hinv : chain_inv (fun x => put_hash hash_mul x (g x)) dbs) (hnd : no_dup dbs.table) :
    ∃ dbs1, step hash_mul fuel dbs op = Res.ok dbs1 ∧ WF dbs1 ∧
      dbs1.cache_size = dbs.cache_size ∧
      chain_inv (fun x => put_hash hash_mul x (g x)) dbs1 ∧ no_dup dbs1.table := by
  have h16 := hwf.2.1
  cases op with
  | put d h =>
    obtain ⟨hd, hh⟩ := hop
    subst hh
    obtain ⟨r, dbs1, x, e, r1, r2, r3, r4⟩ :=
      put_preserves_inv hash_mul g fuel dbs d hwf hd (by omega) hinv hnd
    exact ⟨dbs1, by simp only [step, e], r1, r2, r3, r4⟩
  | clear =>
    have hp : dbs.cache_size % 16 = 0 := by
      obtain ⟨⟨n, hn⟩, _⟩ := hwf
      have h4 : 4 ≤ n := by
        by_contra hc
        have : (2:Nat) ^ n ≤ 2 ^ 3 := Nat.pow_le_pow_right (by norm_num) (by omega)
        omega
      obtain ⟨m, rfl⟩ : ∃ m, n = 4 + m := ⟨n - 4, by omega⟩
      rw [pow_add] at hn
      omega
    obtain ⟨dbs1, tr, e, r1, r2, r3, r4⟩ :=
      clear_preserves_inv (fun x => put_hash hash_mul x (g x)) fuel dbs 0 dbs.cache_size hwf
        rfl hp (by omega) hfuel hinv hnd
    exact ⟨dbs1, by simp only [step, llsimplecache_clear, e], r1, r2, r3, r4⟩
  | clear_range first count =>
    obtain ⟨c1, c2, c3⟩ := hop
    obtain ⟨dbs1, tr, e, r1, r2, r3, r4⟩ :=
      clear_preserves_inv (fun x => put_hash hash_mul x (g x)) fuel dbs first count hwf
        c1 c2 c3 (by omega) hinv hnd
    exact ⟨dbs1, by simp only [step, e], r1, r2, r3, r4⟩

/-- Every sequence of operations allowed by `op_ok` returns and keeps the
invariants. -/
theorem run_preserves_inv (hash_mul : List Nat → Nat → Nat) (g : Nat → Nat) (fuel : Nat) :
    ∀ (ops : List Op) (dbs : llsimplecache), WF dbs →
      (∀ op ∈ ops, op_ok g dbs.cache_size op) → dbs.cache_size + 1 ≤ fuel →
      chain_inv (fun x => put_hash hash_mul x (g x)) dbs → no_dup dbs.table →
      ∃ dbs1, run hash_mul fuel dbs ops = Res.ok dbs1 ∧ WF dbs1 ∧
        dbs1.cache_size = dbs.cache_size ∧
        chain_inv (fun x => put_hash hash_mul x (g x)) dbs1 ∧ no_dup dbs1.table := by
  intro ops
  induction ops with
  | nil =>
    intro dbs hwf _ _ hinv hnd
    exact ⟨dbs, rfl, hwf, rfl, hinv, hnd⟩
  | cons op ops ih =>
    intro dbs hwf hops hfuel hinv hnd
    obtain ⟨dbs1, e, r1, r2, r3, r4⟩ :=
      step_preserves_inv hash_mul g fuel dbs op hwf (hops op (List.mem_cons_self op ops))
        hfuel hinv hnd
    obtain ⟨dbs2, e2, s1, s2, s3, s4⟩ := ih dbs1 r1
      (fun o ho => by rw [r2]; exact hops o (List.mem_cons_of_mem op ho))
      (by rw [r2]; exact hfuel) r3 r4
    exact ⟨dbs2, by simp only [run, e, e2], s1, s2.trans r2, s3, s4⟩

/-- A table of EMPTY slots satisfies the invariants. -/
theorem inv_of_empty (eff : Nat → Nat) (dbs : llsimplecache)
    (h : dbs.table = List.replicate dbs.cache_size 0) :
    chain_inv eff dbs ∧ no_dup dbs.table := by
  have hz : ∀ i, slot dbs.table i = 0 := by
    intro i
    rw [h, slot, List.getD_eq_getElem?_getD]
    by_cases hi : i < dbs.cache_size
    · simp [List.getElem?_replicate, hi]
    · simp [List.getElem?_replicate, hi]
  exact ⟨fun i _ hne => absurd (hz i) hne, fun i _ _ _ hne _ => absurd (hz i) hne⟩

/-- A value read from a slot inside the table is an element of the table. -/
theorem slot_mem (t : List Nat) (i : Nat) (h : i < t.length) : slot t i ∈ t := by
  have : slot t i = t[i] := by
    simp [slot, List.getD_eq_getElem?_getD, List.getElem?_eq_getElem h]
  rw [this]
  exact List.getElem_mem h

/-- A neighbourhood whose 16 slots are all non-EMPTY counts 16 occupied slots. -/
theorem occupied_full (t : List Nat) (home : Nat)
    (h : ∀ j, j < 16 → slot t (walk_slot home j) ≠ 0) : occupied t home = 16 := by
  unfold occupied
  have : (walk home).filter (fun i => decide (slot t i ≠ 0)) = walk home := by
    rw [List.filter_eq_self]
    intro i hi
    simp only [walk, List.mem_map, List.mem_range] at hi
    obtain ⟨j, hj, rfl⟩ := hi
    simpa using h j hj
  rw [this]
  simp [walk]

/-! ## Filling one neighbourhood -/

theorem put_seq_append (hash_mul : List Nat → Nat → Nat) (fuel h : Nat) :
    ∀ (ps qs : List Nat) (dbs dbs1 dbs2 : llsimplecache) (rs1 rs2 : List (Nat × Nat)),
      put_seq hash_mul fuel h dbs ps = Res.ok (rs1, dbs1) →
      put_seq hash_mul fuel h dbs1 qs = Res.ok (rs2, dbs2) →
      put_seq hash_mul fuel h dbs (ps ++ qs) = Res.ok (rs1 ++ rs2, dbs2) := by
  intro ps
  induction ps with
  | nil =>
    intro qs dbs dbs1 dbs2 rs1 rs2 h1 h2
    simp only [put_seq, Res.ok.injEq, Prod.mk.injEq] at h1
    obtain ⟨rfl, rfl⟩ := h1
    simpa using h2
  | cons p ps ih =>
    intro qs dbs dbs1 dbs2 rs1 rs2 h1 h2
    simp only [put_seq] at h1
    cases hp : llsimplecache_put hash_mul fuel dbs p h with
    | ok a =>
      obtain ⟨r, dbsa, x⟩ := a
      rw [hp] at h1
      simp only at h1
      cases hs : put_seq hash_mul fuel h dbsa ps with
      | ok b =>
        obtain ⟨rs, dbsb⟩ := b
        rw [hs] at h1
        simp only [Res.ok.injEq, Prod.mk.injEq] at h1
        obtain ⟨rfl, rfl⟩ := h1
        have := ih qs dbsa dbsb dbs2 rs rs2 hs h2
        rw [List.cons_append]
        simp only [put_seq, hp, this, List.cons_append]
      | fault => rw [hs] at h1; exact absurd h1 (by simp)
      | timeout => rw [hs] at h1; exact absurd h1 (by simp)
    | fault => rw [hp] at h1; exact absurd h1 (by simp)
    | timeout => rw [hp] at h1; exact absurd h1 (by simp)

/-- Putting distinct non-zero payloads with one non-zero hash into a
neighbourhood whose walk is filled up to step `k` and EMPTY from there on
appends them along the walk, each call returning InsertedEmpty. -/
theorem fill_prefix (hash_mul : List Nat → Nat → Nat) (fuel h : Nat) (hh : h ≠ 0)
    (hfuel : 17 ≤ fuel) :
    ∀ (ps : List Nat) (dbs : llsimplecache) (k : Nat), WF dbs → ps.Nodup →
      (∀ p ∈ ps, p ≠ 0) → k + ps.length ≤ 16 →
      (∀ j, k ≤ j → j < 16 → slot dbs.table (walk_slot (h &&& dbs.mask) j) = 0) →
      (∀ j, j < k → slot dbs.table (walk_slot (h &&& dbs.mask) j) ≠ 0 ∧
        slot dbs.table (walk_slot (h &&& dbs.mask) j) ∉ ps) →
      ∃ dbs1, put_seq hash_mul fuel h dbs ps = Res.ok (ps.map (fun p => (1, p)), dbs1) ∧
        WF dbs1 ∧ dbs1.mask = dbs.mask ∧ dbs1.table.length = dbs.table.length ∧
        (∀ j, j < k → slot dbs1.table (walk_slot (h &&& dbs.mask) j) =
          slot dbs.table (walk_slot (h &&& dbs.mask) j)) ∧
        (∀ i, i < ps.length →
          slot dbs1.table (walk_slot (h &&& dbs.mask) (k + i)) = ps.getD i 0) ∧
        (∀ j, k + ps.length ≤ j → j < 16 →
          slot dbs1.table (walk_slot (h &&& dbs.mask) j) = 0) := by
  intro ps
  induction ps with
  | nil =>
    intro dbs k hwf _ _ _ hz _
    exact ⟨dbs, rfl, hwf, rfl, rfl, fun _ _ => rfl, fun i hi => absurd hi (by simp),
      fun j hj hj2 => hz j (by simpa using hj) hj2⟩
  | cons p ps ih =>
    intro dbs k hwf hnd hnz hk hz hpre
    have hp0 : p ≠ 0 := hnz p (List.mem_cons_self p ps)
    have hph : put_hash hash_mul p h = h := put_hash_of_ne_zero hash_mul p h hh
    have hk16 : k < 16 := by simp only [List.length_cons] at hk; omega
    have hhome := home_lt dbs h hwf
    have hlen : walk_slot (h &&& dbs.mask) k < dbs.table.length :=
      walk_slot_lt dbs _ k hwf hhome.2
    have hsc : scanned dbs.table p (put_hash hash_mul p h &&& dbs.mask) k := by
      rw [hph]
      intro j hj
      refine ⟨(hpre j hj).1, fun e => (hpre j hj).2 ?_⟩
      rw [e]; exact List.mem_cons_self p ps
    have hput := put_insert_of_scanned hash_mul fuel dbs p h k hwf hp0 hfuel hk16 hsc
      (by rw [hph]; exact hz k (le_refl k) hk16)
    rw [hph] at hput
    have hval : ∀ j, j < 16 → slot (dbs.table.set (walk_slot (h &&& dbs.mask) k) p)
        (walk_slot (h &&& dbs.mask) j) =
          if j = k then p else slot dbs.table (walk_slot (h &&& dbs.mask) j) := by
      intro j hj
      rw [slot_set]
      by_cases hjk : j = k
      · subst hjk; simp [hlen]
      · have : walk_slot (h &&& dbs.mask) k ≠ walk_slot (h &&& dbs.mask) j :=
          fun e => hjk (walk_slot_inj _ _ _ hk16 hj e).symm
        simp [this, hjk]
    obtain ⟨dbs1, e, r1, r2, r3, r4, r5, r6⟩ :=
      ih (with_table dbs (dbs.table.set (walk_slot (h &&& dbs.mask) k) p)) (k + 1)
        (wf_set dbs _ p hwf) (List.nodup_cons.mp hnd).2
        (fun q hq => hnz q (List.mem_cons_of_mem p hq))
        (by simp only [List.length_cons] at hk; omega)
        (by
          intro j hj1 hj2
          show slot (dbs.table.set (walk_slot (h &&& dbs.mask) k) p)
            (walk_slot (h &&& dbs.mask) j) = 0
          rw [hval j hj2, if_neg (by omega)]
          exact hz j (by omega) hj2)
        (by
          intro j hj
          show slot (dbs.table.set (walk_slot (h &&& dbs.mask) k) p)
              (walk_slot (h &&& dbs.mask) j) ≠ 0 ∧
            slot (dbs.table.set (walk_slot (h &&& dbs.mask) k) p)
              (walk_slot (h &&& dbs.mask) j) ∉ ps
          rw [hval j (by omega)]
          by_cases hjk : j = k
          · rw [if_pos hjk]
            exact ⟨hp0, (List.nodup_cons.mp hnd).1⟩
          · rw [if_neg hjk]
            have := hpre j (by omega)
            exact ⟨this.1, fun hm => this.2 (List.mem_cons_of_mem p hm)⟩)
    simp only [with_table] at r2 r3 r4 r5 r6 e
    refine ⟨dbs1, ?_, r1, r2, by simpa using r3, ?_, ?_, ?_⟩
    · simp only [put_seq, hput, with_table, e, List.map_cons]
    · intro j hj
      have := r4 j (by omega)
      rw [this, hval j (by omega), if_neg (by omega)]
    · intro i hi
      cases i with
      | zero =>
        have := r4 k (by omega)
        simp only [Nat.add_zero, List.getD_cons_zero]
        rw [this, hval k hk16, if_pos rfl]
      | succ i =>
        have := r5 i (by simp only [List.length_cons] at hi; omega)
        have e2 : k + (i + 1) = k + 1 + i := by omega
        rw [e2, this]
        simp
    · intro j hj1 hj2
      exact r6 j (by simp only [List.length_cons] at hj1; omega) hj2

/-- Seventeen distinct non-zero payloads put with one non-zero hash into an
EMPTY neighbourhood: sixteen InsertedEmpty along the walk, then the home slot
is traded and the first payload comes back. -/
theorem fill_then_trade (hash_mul : List Nat → Nat → Nat) (fuel h : Nat) (hh : h ≠ 0)
    (hfuel : 17 ≤ fuel) (dbs : llsimplecache) (ps : List Nat) (hwf : WF dbs)
    (hz : ∀ j, j < 16 → slot dbs.table (walk_slot (h &&& dbs.mask) j) = 0)
    (hlen : ps.length = 17) (hnz : ∀ p ∈ ps, p ≠ 0) (hnd : ps.Nodup) :
    ∃ dbs1, put_seq hash_mul fuel h dbs ps =
        Res.ok ((ps.take 16).map (fun p => (1, p)) ++ [(2, ps.getD 0 0)], dbs1) ∧
      dbs1.table.length = dbs.table.length ∧
      slot dbs1.table (walk_slot (h &&& dbs.mask) 0) = ps.getD 16 0 ∧
      ∀ j, 0 < j → j < 16 → slot dbs1.table (walk_slot (h &&& dbs.mask) j) = ps.getD j 0 := by
  have hl16 : (ps.take 16).length = 16 := by simp [hlen]
  obtain ⟨dbs1, e, w1, m1, l1, _, v1, _⟩ :=
    fill_prefix hash_mul fuel h hh hfuel (ps.take 16) dbs 0 hwf
      (List.Nodup.sublist (List.take_sublist 16 ps) hnd)
      (fun p hp => hnz p (List.mem_of_mem_take hp)) (by omega)
      (fun j _ hj => hz j hj) (fun j hj => absurd hj (Nat.not_lt_zero j))
  have hget : ∀ j, j < 16 → (ps.take 16).getD j 0 = ps.getD j 0 := by
    intro j hj
    simp [List.getD_eq_getElem?_getD, List.getElem?_take_of_lt hj]
  have hv : ∀ j, j < 16 → slot dbs1.table (walk_slot (h &&& dbs.mask) j) = ps.getD j 0 := by
    intro j hj
    have := v1 j (by omega)
    rw [Nat.zero_add] at this
    rw [this, hget j hj]
  have hdrop : ps.drop 16 = [ps.getD 16 0] := by
    rw [List.drop_eq_getElem_cons (by omega : 16 < ps.length)]
    have : ps.drop (16 + 1) = [] := List.drop_eq_nil_of_le (by omega)
    rw [this, List.getD_eq_getElem ps 0 (by omega : 16 < ps.length)]
  have hp17 : ps.getD 16 0 ≠ 0 := by
    rw [List.getD_eq_getElem ps 0 (by omega : 16 < ps.length)]
    exact hnz _ (List.getElem_mem _)
  have hph : put_hash hash_mul (ps.getD 16 0) h = h := put_hash_of_ne_zero hash_mul _ h hh
  have hfull : scanned dbs1.table (ps.getD 16 0)
      (put_hash hash_mul (ps.getD 16 0) h &&& dbs1.mask) 16 := by
    rw [hph, m1]
    intro j hj
    rw [hv j hj, List.getD_eq_getElem ps 0 (by omega : j < ps.length),
      List.getD_eq_getElem ps 0 (by omega : 16 < ps.length)]
    refine ⟨hnz _ (List.getElem_mem _), fun e => ?_⟩
    have := (List.Nodup.getElem_inj_iff hnd).mp e
    omega
  have hput := put_evict_of_full hash_mul fuel dbs1 (ps.getD 16 0) h w1 hp17 hfuel hfull
  rw [hph, m1] at hput
  have hx : slot dbs1.table (h &&& dbs.mask) = ps.getD 0 0 := by
    have := hv 0 (by decide)
    rwa [walk_slot_zero] at this
  rw [hx] at hput
  have hlast : put_seq hash_mul fuel h dbs1 [ps.getD 16 0] =
      Res.ok ([(2, ps.getD 0 0)],
        with_table dbs1 (dbs1.table.set (h &&& dbs.mask) (ps.getD 16 0))) := by
    simp only [put_seq, hput]
  have happ := put_seq_append hash_mul fuel h (ps.take 16) [ps.getD 16 0] dbs dbs1 _ _ _ e hlast
  rw [← hdrop, List.take_append_drop] at happ
  have hhome := home_lt dbs h hwf
  have hlt : h &&& dbs.mask < dbs1.table.length := by
    rw [l1, hwf.2.2.2.1]; exact hhome.2
  refine ⟨_, happ, by simpa [with_table] using l1, ?_, ?_⟩
  · rw [walk_slot_zero]
    exact slot_set_same _ _ _ hlt
  · intro j hj0 hj
    show slot (dbs1.table.set (h &&& dbs.mask) (ps.getD 16 0)) (walk_slot (h &&& dbs.mask) j)
      = ps.getD j 0
    rw [slot_set]
    have hne : h &&& dbs.mask ≠ walk_slot (h &&& dbs.mask) j :=
      (walk_slot_ne_home _ j hj0 hj).symm
    simp only [hne, false_and, if_false]
    exact hv j hj

/-- In a table of 16 slots the walk from any home slot is a rearrangement of
the slots `0, ..., 15`. -/
theorem walk_perm (home : Nat) (h : home < 16) : (walk home).Perm (List.range 16) := by
  unfold walk walk_slot
  interval_cases home <;> decide

/-- A table of 16 slots is the list of its slot contents. -/
theorem table_eq_map_slot (t : List Nat) (h : t.length = 16) :
    t = (List.range 16).map (slot t) := by
  apply List.ext_getElem
  · simp [h]
  · intro n h1 h2
    simp [slot, List.getD_eq_getElem?_getD, List.getElem?_eq_getElem h1]

/-- A list of 17 elements, spelled out. -/
theorem list17 (ps : List Nat) (h : ps.length = 17) :
    ps = (List.range 17).map (fun i => ps.getD i 0) := by
  apply List.ext_getElem
  · simp [h]
  · intro n h1 h2
    simp [List.getD_eq_getElem?_getD, List.getElem?_eq_getElem h1]

/-- The walk order read back: first the value at step 0, then steps 1 to 15,
is a rearrangement of the values at steps 1 to 15 followed by that at step 0. -/
theorem rotate17_perm (f : Nat → Nat) :
    ((List.range 16).map (fun j => if j = 0 then f 16 else f j)).Perm
      ((List.range 17).map f).tail := by
  show List.Perm [f 16, f 1, f 2, f 3, f 4, f 5, f 6, f 7, f 8, f 9, f 10, f 11, f 12, f 13, f 14, f 15] ([f 1, f 2, f 3, f 4, f 5, f 6, f 7, f 8, f 9, f 10, f 11, f 12, f 13, f 14, f 15] ++ [f 16])
  exact (List.perm_append_singleton (f 16) [f 1, f 2, f 3, f 4, f 5, f 6, f 7, f 8, f 9, f 10, f 11, f 12, f 13, f 14, f 15]).symm

/-- The cache created for a requested capacity of 16. -/
theorem create_16 (cb : Option Nat) (ctx : Nat) :
    llsimplecache_create 16 cb ctx =
      some { cache_size := 16, mask := 15, table := List.replicate 16 0,
             cb_delete := cb, cb_data := ctx } := by
  rfl

theorem wf_cache16 (t : List Nat) (h : t.length = 16) : WF (cache16 t) :=
  ⟨⟨4, rfl⟩, Nat.le_refl 16, rfl, h, (by decide : 16 < 2 ^ 64)⟩

/-! ## `put` for an arbitrary payload -/

/-- From step `k` of the walk on, the scan loop computes `scan_any` over the
remaining slots, whatever the payload is. -/
theorem put_scan_any_eq (d home : Nat) (t : List Nat) (hh : home < 2 ^ 32)
    (hb : ∀ j, walk_slot home j < t.length) :
    ∀ (m k fuel : Nat), k + m = 15 → (k = 0 ∨ slot t home ≠ d) → m + 2 ≤ fuel →
      put_scan d home fuel (walk_slot home k) t =
        Res.ok (scan_any t d home ((List.range' k (m + 1)).map (walk_slot home))) := by
  intro m
  induction m with
  | zero =>
    intro k fuel hk h0 hfuel
    obtain ⟨f, rfl⟩ : ∃ f, fuel = f + 2 := ⟨fuel - 2, by omega⟩
    have hk15 : k = 15 := by omega
    subst hk15
    have hne : slot t home ≠ d := by
      rcases h0 with h | h
      · omega
      · exact h
    have hw16 : walk_slot home (15 + 1) = home := by unfold walk_slot; omega
    by_cases hv0 : slot t (walk_slot home 15) = 0
    · simp [put_scan, scan_any, getElem?_eq_slot t _ (hb 15), hv0, EMPTY, List.range']
      have := cas_same t (walk_slot home 15) d (hb 15)
      rw [hv0] at this
      simp [this]
    · by_cases hvd : slot t (walk_slot home 15) = d
      · have hd0 : ¬ d = 0 := fun e => hv0 (hvd.trans e)
        simp [put_scan, scan_any, getElem?_eq_slot t _ (hb 15), hvd, EMPTY, List.range', hd0]
      · have hhome : home < t.length := by
          have := hb 0
          rwa [walk_slot_zero] at this
        simp [put_scan, scan_any, getElem?_eq_slot t _ (hb 15), hv0, hvd, EMPTY, List.range',
          next_walk_slot home 15 hh, hw16, put_claim_eq d home f t hhome hne]
  | succ m ih =>
    intro k fuel hk h0 hfuel
    obtain ⟨f, rfl⟩ : ∃ f, fuel = f + 1 := ⟨fuel - 1, by omega⟩
    by_cases hv0 : slot t (walk_slot home k) = 0
    · simp [put_scan, scan_any, getElem?_eq_slot t _ (hb k), hv0, EMPTY, List.range']
      have := cas_same t (walk_slot home k) d (hb k)
      rw [hv0] at this
      simp [this]
    · by_cases hvd : slot t (walk_slot home k) = d
      · have hd0 : ¬ d = 0 := fun e => hv0 (hvd.trans e)
        simp [put_scan, scan_any, getElem?_eq_slot t _ (hb k), hvd, EMPTY, List.range', hd0]
      · have hne : walk_slot home (k + 1) ≠ home :=
          walk_slot_ne_home home (k + 1) (by omega) (by omega)
        have h0k : k + 1 = 0 ∨ slot t home ≠ d := by
          right
          rcases h0 with h | h
          · subst h; rwa [walk_slot_zero] at hvd
          · exact h
        have := ih (k + 1) f (by omega) h0k (by omega)
        simp [put_scan, getElem?_eq_slot t _ (hb k), hv0, hvd, EMPTY,
          next_walk_slot home k hh, hne, this]
        simp [scan_any, List.range', hv0, hvd, EMPTY]

/-- The three outcomes of `scan_any` over a whole neighbourhood. -/
theorem scan_any_cases (t : List Nat) (d home : Nat) :
    (∃ k, k < 16 ∧ scanned t d home k ∧ slot t (walk_slot home k) = 0 ∧
        scan_any t d home (walk home) = (1, t.set (walk_slot home k) d, d)) ∨
    (∃ k, k < 16 ∧ scanned t d home k ∧ slot t (walk_slot home k) ≠ 0 ∧
        slot t (walk_slot home k) = d ∧ scan_any t d home (walk home) = (0, t, d)) ∨
    (scanned t d home 16 ∧ scan_any t d home (walk home) = (2, t.set home d, slot t home)) := by
  rcases find_range_cases (fun i => decide (slot t i = EMPTY) || decide (slot t i = d))
      (walk_slot home) 16 0 with ⟨i, _, h2, h3, h4, h5⟩ | ⟨h1, h2⟩
  · have hpre : scanned t d home i := by
      intro j hj
      have := h3 j (Nat.zero_le j) hj
      simpa [EMPTY] using this
    by_cases hv : slot t (walk_slot home i) = 0
    · left
      refine ⟨i, by omega, hpre, hv, ?_⟩
      simp only [scan_any, walk, List.range_eq_range', h5]
      simp [hv, EMPTY]
    · right; left
      have hd : slot t (walk_slot home i) = d := by
        simpa [EMPTY, hv] using h4
      refine ⟨i, by omega, hpre, hv, hd, ?_⟩
      simp only [scan_any, walk, List.range_eq_range', h5]
      simp [hv, EMPTY]
  · right; right
    refine ⟨?_, ?_⟩
    · intro j hj
      have := h1 j (Nat.zero_le j) (by omega)
      simpa [EMPTY] using this
    · simp only [scan_any, walk, List.range_eq_range', h2]

/-- The three outcomes of `put` for any payload, on a table that contains the
neighbourhood of the home slot: InsertedEmpty at step `k` of the walk, Found at
step `k`, or InsertedEvicted at the home slot. -/
theorem put_any_cases (hash_mul : List Nat → Nat → Nat) (fuel : Nat) (dbs : llsimplecache)
    (d h : Nat) (hh : put_hash hash_mul d h &&& dbs.mask < 2 ^ 32)
    (hb : ∀ j, walk_slot (put_hash hash_mul d h &&& dbs.mask) j < dbs.table.length)
    (hfuel : 17 ≤ fuel) :
    (∃ k, k < 16 ∧ scanned dbs.table d (put_hash hash_mul d h &&& dbs.mask) k ∧
        slot dbs.table (walk_slot (put_hash hash_mul d h &&& dbs.mask) k) = 0 ∧
        llsimplecache_put hash_mul fuel dbs d h =
          Res.ok (1, with_table dbs
            (dbs.table.set (walk_slot (put_hash hash_mul d h &&& dbs.mask) k) d), d)) ∨
    (∃ k, k < 16 ∧ scanned dbs.table d (put_hash hash_mul d h &&& dbs.mask) k ∧
        slot dbs.table (walk_slot (put_hash hash_mul d h &&& dbs.mask) k) ≠ 0 ∧
        slot dbs.table (walk_slot (put_hash hash_mul d h &&& dbs.mask) k) = d ∧
        llsimplecache_put hash_mul fuel dbs d h = Res.ok (0, dbs, d)) ∨
    (scanned dbs.table d (put_hash hash_mul d h &&& dbs.mask) 16 ∧
        llsimplecache_put hash_mul fuel dbs d h =
          Res.ok (2, with_table dbs (dbs.table.set (put_hash hash_mul d h &&& dbs.mask) d),
            slot dbs.table (put_hash hash_mul d h &&& dbs.mask))) := by
  have hs := put_scan_any_eq d (put_hash hash_mul d h &&& dbs.mask) dbs.table hh hb 15 0 fuel
    (by omega) (Or.inl rfl) (by omega)
  rw [walk_slot_zero] at hs
  have hw : (List.range' 0 (15 + 1)).map (walk_slot (put_hash hash_mul d h &&& dbs.mask)) =
      walk (put_hash hash_mul d h &&& dbs.mask) := by
    simp only [walk, List.range_eq_range']
  rw [hw] at hs
  rcases scan_any_cases dbs.table d (put_hash hash_mul d h &&& dbs.mask) with
    ⟨k, h1, h2, h3, h4⟩ | ⟨k, h1, h2, h3, h4, h5⟩ | ⟨h1, h2⟩
  · left
    exact ⟨k, h1, h2, h3, by simp only [llsimplecache_put, hs, h4]⟩
  · right; left
    exact ⟨k, h1, h2, h3, h4, by simp only [llsimplecache_put, hs, h5]; rfl⟩
  · right; right
    exact ⟨h1, by simp only [llsimplecache_put, hs, h2]⟩

/-- The claim loop never leaves the table. -/
theorem put_claim_no_fault (d home : Nat) :
    ∀ (fuel : Nat) (t : List Nat), home < t.length → put_claim d home fuel t ≠ Res.fault := by
  intro fuel
  induction fuel with
  | zero => intro t _; simp [put_claim]
  | succ f _ =>
    intro t hlt
    by_cases hv : slot t home = d
    · simp [put_claim, getElem?_eq_slot t home hlt, hv]
    · simp [put_claim, getElem?_eq_slot t home hlt, hv, cas_same t home d hlt]

/-- The scan loop, started at any step of the walk with any amount of fuel,
never leaves the table. -/
theorem put_scan_no_fault (d home : Nat) (hh : home < 2 ^ 32) :
    ∀ (fuel k : Nat) (t : List Nat), (∀ j, walk_slot home j < t.length) →
      put_scan d home fuel (walk_slot home k) t ≠ Res.fault := by
  intro fuel
  induction fuel with
  | zero => intro k t _; simp [put_scan]
  | succ f ih =>
    intro k t hb
    have hhome : home < t.length := by
      have := hb 0
      rwa [walk_slot_zero] at this
    by_cases hv0 : slot t (walk_slot home k) = 0
    · have := cas_same t (walk_slot home k) d (hb k)
      rw [hv0] at this
      simp [put_scan, getElem?_eq_slot t _ (hb k), hv0, EMPTY, this]
    · by_cases hvd : slot t (walk_slot home k) = d
      · have hd0 : ¬ d = 0 := fun e => hv0 (hvd.trans e)
        simp [put_scan, getElem?_eq_slot t _ (hb k), hvd, EMPTY, hd0]
      · by_cases hstop : walk_slot home (k + 1) = home
        · simp [put_scan, getElem?_eq_slot t _ (hb k), hv0, hvd, EMPTY,
            next_walk_slot home k hh, hstop]
          exact put_claim_no_fault d home f t hhome
        · simp [put_scan, getElem?_eq_slot t _ (hb k), hv0, hvd, EMPTY,
            next_walk_slot home k hh, hstop]
          exact ih (k + 1) t hb

/-- The index after `k` calls of `next` is the slot at step `k` of the walk. -/
theorem next_n_eq (s : Nat) (hs : s < 2 ^ 32) : ∀ k, next_n s k = walk_slot s k := by
  intro k
  induction k with
  | zero => simp [next_n, walk_slot_zero]
  | succ k ih =>
    simp only [next_n, ih, next_walk_slot s k hs]

/-! ## The capacities accepted by `create` -/

/-- Leading zeros of `2 ^ k - 1` among `n` bits. -/
theorem clz_from_pow_sub_one : ∀ (n k : Nat), k ≤ n → clz_from n (2 ^ k - 1) = n - k := by
  intro n
  induction n with
  | zero => intro k _; simp [clz_from]
  | succ n ih =>
    intro k hk
    have hpos : 0 < (2:Nat) ^ k := Nat.pow_pos (by norm_num)
    by_cases hkn : k = n + 1
    · subst hkn
      have h2 : (2:Nat) ^ (n + 1) = 2 * 2 ^ n := by rw [pow_succ]; omega
      have hn : 0 < (2:Nat) ^ n := Nat.pow_pos (by norm_num)
      have : 2 ^ n ≤ 2 ^ (n + 1) - 1 := by omega
      simp [clz_from, this]
    · have hle : (2:Nat) ^ k ≤ 2 ^ n := Nat.pow_le_pow_right (by norm_num) (by omega)
      have : ¬ 2 ^ n ≤ 2 ^ k - 1 := by omega
      simp only [clz_from, this, if_false, ih k (by omega)]
      omega

/-- The function `next_pow2` fixes the powers of two from 4 to `2 ^ 31`. -/
theorem next_pow2_pow (k : Nat) (h2 : 2 ≤ k) (h31 : k ≤ 31) : next_pow2 (2 ^ k) = 2 ^ k := by
  have hgt : (2:Nat) ^ 2 ≤ 2 ^ k := Nat.pow_le_pow_right (by norm_num) h2
  have hx2 : ¬ (2:Nat) ^ k ≤ 2 := by omega
  have hlt : (2:Nat) ^ k < 2 ^ 32 := Nat.pow_lt_pow_right (by norm_num) (by omega)
  simp only [next_pow2, hx2, if_false, Nat.shiftLeft_eq, Nat.shiftRight_eq_div_pow, one_mul,
    clz, clz_from_pow_sub_one 32 k (by omega)]
  rw [Nat.pow_div (by omega) (by norm_num)]
  have e : 32 - (32 - k) = k := by omega
  rw [e]
  exact Nat.mod_eq_of_lt hlt

/-- The assertion of `create` on a capacity of at least 16: it holds exactly
for the powers of two up to `2 ^ 31`. -/
theorem assert_iff (c1 : Nat) (h16 : 16 ≤ c1) :
    next_pow2 (c1 % 2 ^ 32) = c1 ↔ (∃ k, c1 = 2 ^ k) ∧ c1 ≤ 2 ^ 31 := by
  constructor
  · intro hnp
    have hbig : 2 < c1 % 2 ^ 32 := by
      by_contra hcon
      have : next_pow2 (c1 % 2 ^ 32) = c1 % 2 ^ 32 := by
        unfold next_pow2
        rw [if_pos (Nat.le_of_not_lt hcon)]
      omega
    rcases next_pow2_shape (c1 % 2 ^ 32) hbig with h0 | ⟨k, hk, hp⟩
    · omega
    · have hc : c1 = 2 ^ k := by rw [← hnp, hp]
      have hle : (2:Nat) ^ k ≤ 2 ^ 31 := Nat.pow_le_pow_right (by norm_num) (by omega)
      exact ⟨⟨k, hc⟩, by omega⟩
  · rintro ⟨⟨k, hk⟩, hle⟩
    have hk31 : k ≤ 31 := by
      by_contra hcon
      have : (2:Nat) ^ 32 ≤ 2 ^ k := Nat.pow_le_pow_right (by norm_num) (by omega)
      have h3 : (2:Nat) ^ 31 < 2 ^ 32 := by norm_num
      omega
    have hk2 : 2 ≤ k := by
      by_contra hcon
      have : (2:Nat) ^ k ≤ 2 ^ 1 := Nat.pow_le_pow_right (by norm_num) (by omega)
      omega
    have hlt : c1 < 2 ^ 32 := by
      have h3 : (2:Nat) ^ 31 < 2 ^ 32 := by norm_num
      omega
    rw [Nat.mod_eq_of_lt hlt, hk]
    exact next_pow2_pow k hk2 hk31

/-- The capacity after line 107. -/
theorem clamp_eq (c : Nat) : (if c < HASH_PER_CL then HASH_PER_CL else c) = max c 16 := by
  have : HASH_PER_CL = 16 := by decide
  rw [this]
  split <;> omega

/-- When `max c 16` is a power of two up to `2 ^ 31`, `create` returns the
cache of `max c 16` EMPTY slots. -/
theorem create_accept (c : Nat) (cb : Option Nat) (ctx : Nat)
    (hacc : (∃ k, max c 16 = 2 ^ k) ∧ max c 16 ≤ 2 ^ 31) :
    llsimplecache_create c cb ctx =
      some { cache_size := max c 16, mask := max c 16 - 1,
             table := List.replicate (max c 16) 0, cb_delete := cb, cb_data := ctx } := by
  have h16 : 16 ≤ max c 16 := le_max_right c 16
  unfold llsimplecache_create
  simp only [clamp_eq]
  rw [if_pos ((assert_iff _ h16).mpr hacc)]
  have h3 : (2:Nat) ^ 31 < 2 ^ 32 := by norm_num
  have : (max c 16 - 1) % 2 ^ 32 = max c 16 - 1 := Nat.mod_eq_of_lt (by omega)
  rw [this]

/-- When `max c 16` is not a power of two up to `2 ^ 31`, the assertion of
`create` fails. -/
theorem create_reject (c : Nat) (cb : Option Nat) (ctx : Nat)
    (hrej : ¬ ((∃ k, max c 16 = 2 ^ k) ∧ max c 16 ≤ 2 ^ 31)) :
    llsimplecache_create c cb ctx = none := by
  have h16 : 16 ≤ max c 16 := le_max_right c 16
  unfold llsimplecache_create
  simp only [clamp_eq]
  rw [if_neg (fun h => hrej ((assert_iff _ h16).mp h))]

/-- A returned `put` changed at most the table of the cache. -/
theorem put_frame (hash_mul : List Nat → Nat → Nat) (fuel : Nat) (dbs dbs1 : llsimplecache)
    (d h r x : Nat) (hput : llsimplecache_put hash_mul fuel dbs d h = Res.ok (r, dbs1, x)) :
    ∃ t1, dbs1 = with_table dbs t1 := by
  unfold llsimplecache_put at hput
  simp only at hput
  cases hs : put_scan d (put_hash hash_mul d h &&& dbs.mask) fuel
      (put_hash hash_mul d h &&& dbs.mask) dbs.table with
  | ok a =>
    obtain ⟨r1, t1, x1⟩ := a
    rw [hs] at hput
    simp only [Res.ok.injEq, Prod.mk.injEq] at hput
    exact ⟨t1, hput.2.1.symm⟩
  | fault => rw [hs] at hput; exact absurd hput (by simp)
  | timeout => rw [hs] at hput; exact absurd hput (by simp)

/-- A returned range clear changed at most the table of the cache. -/
theorem clear_frame (fuel : Nat) (dbs dbs1 : llsimplecache) (first count : Nat)
    (tr : List CbCall)
    (hcl : llsimplecache_clear_partial fuel dbs first count = Res.ok (dbs1, tr)) :
    ∃ t1, dbs1 = with_table dbs t1 := by
  unfold llsimplecache_clear_partial at hcl
  simp only at hcl
  cases hcb : dbs.cb_delete with
  | none =>
    rw [hcb] at hcl
    simp only at hcl
    cases hs : clear_plain fuel dbs.table first ((first + count) % 2 ^ 64) with
    | ok t1 =>
      rw [hs] at hcl
      simp only [Res.ok.injEq, Prod.mk.injEq] at hcl
      exact ⟨t1, hcl.1.symm⟩
    | fault => rw [hs] at hcl; exact absurd hcl (by simp)
    | timeout => rw [hs] at hcl; exact absurd hcl (by simp)
  | some f =>
    rw [hcb] at hcl
    simp only at hcl
    cases hs : clear_cb f dbs.cb_data fuel dbs.table first ((first + count) % 2 ^ 64) [] with
    | ok a =>
      obtain ⟨t1, tr1⟩ := a
      rw [hs] at hcl
      simp only [Res.ok.injEq, Prod.mk.injEq] at hcl
      exact ⟨t1, hcl.1.symm⟩
    | fault => rw [hs] at hcl; exact absurd hcl (by simp)
    | timeout => rw [hs] at hcl; exact absurd hcl (by simp)

/-! ## Consequences for single slots -/

/-- Writing to a slot the value it holds leaves the table as it is. -/
theorem set_same (t : List Nat) (i v : Nat) (h : slot t i = v) (hi : i < t.length) :
    t.set i v = t := by
  apply List.ext_getElem?
  intro n
  rw [List.getElem?_set]
  by_cases hn : i = n
  · subst hn
    rw [if_pos rfl, if_pos hi, getElem?_eq_slot t i hi, h]
  · rw [if_neg hn]

/-- The walk slots of a valid cache, for the hash that `put` uses. -/
theorem put_bounds (hash_mul : List Nat → Nat → Nat) (dbs : llsimplecache) (d h : Nat)
    (hwf : WF dbs) :
    put_hash hash_mul d h &&& dbs.mask < 2 ^ 32 ∧
      ∀ j, walk_slot (put_hash hash_mul d h &&& dbs.mask) j < dbs.table.length := by
  have hhome := home_lt dbs (put_hash hash_mul d h) hwf
  exact ⟨hhome.1, fun j => walk_slot_lt dbs _ j hwf hhome.2⟩

/-- Every slot of a walk lies in the line-aligned block of 16 slots of its
home slot. -/
theorem walk_slot_block (home k : Nat) :
    home / 16 * 16 ≤ walk_slot home k ∧ walk_slot home k < home / 16 * 16 + 16 := by
  unfold walk_slot
  omega

/-- After the home slot of a full neighbourhood is set to 0, one slot less of
the neighbourhood is occupied. -/
theorem occupied_after_zero (t : List Nat) (home : Nat) (hlen : home < t.length)
    (h : ∀ j, j < 16 → slot t (walk_slot home j) ≠ 0) :
    occupied (t.set home 0) home + 1 = occupied t home := by
  rw [occupied_full t home h]
  unfold occupied
  have hw : walk home = walk_slot home 0 :: (List.range' 1 15).map (walk_slot home) := by
    simp only [walk, List.range_eq_range']
    rfl
  have h0 : slot (t.set home 0) (walk_slot home 0) = 0 := by
    rw [walk_slot_zero]; exact slot_set_same t home 0 hlen
  have hrest : ((List.range' 1 15).map (walk_slot home)).filter
      (fun i => decide (slot (t.set home 0) i ≠ 0)) = (List.range' 1 15).map (walk_slot home) := by
    rw [List.filter_eq_self]
    intro i hi
    simp only [List.mem_map, List.mem_range'_1] at hi
    obtain ⟨j, ⟨hj1, hj2⟩, rfl⟩ := hi
    have hne : home ≠ walk_slot home j := (walk_slot_ne_home home j (by omega) (by omega)).symm
    have : slot (t.set home 0) (walk_slot home j) = slot t (walk_slot home j) := by
      rw [slot_set]; simp [hne]
    rw [this]
    simpa using h j (by omega)
  rw [hw, List.filter_cons_of_neg (by simp [h0]), hrest]
  simp

/-! ## Claims -/

/-- C1: on a cache whose capacity is a power of two at least 16, for a non-zero
payload `d` and a non-zero hash `h`, `llsimplecache_put` returns (with 17 units
of fuel or more) exactly what the reference definition returns: the 16 slots of
the neighbourhood of `home = h & mask` are scanned in walk order from `home`;
the first slot that is EMPTY or holds `d` decides between Found (0, nothing
changes) and InsertedEmpty (1, `d` stored in that slot); without such a slot
`d` is stored in slot `home`, whose previous content goes to `*data`, and the
result is InsertedEvicted (2). -/
theorem put_refines_reference (hash_mul : List Nat → Nat → Nat) (fuel : Nat)
    (dbs : llsimplecache) (d h : Nat) (hwf : WF dbs) (hd : d ≠ 0) (hh : h ≠ 0)
    (hfuel : 17 ≤ fuel) :
    llsimplecache_put hash_mul fuel dbs d h = Res.ok (put_ref dbs d h) := by
  have := put_eq_ref hash_mul fuel dbs d h hwf hd hfuel
  rwa [put_hash_of_ne_zero hash_mul d h hh] at this

/-- Instance of C1: a full neighbourhood, payload 170, hash 3. -/
theorem put_refines_reference_witness :
    WF (cache16 [10, 20, 30, 40, 50, 60, 70, 80, 90, 100, 110, 120, 130, 140, 150, 160]) ∧
    llsimplecache_put (const_hash 0) 17
        (cache16 [10, 20, 30, 40, 50, 60, 70, 80, 90, 100, 110, 120, 130, 140, 150, 160]) 170 3
      = Res.ok (put_ref
          (cache16 [10, 20, 30, 40, 50, 60, 70, 80, 90, 100, 110, 120, 130, 140, 150, 160])
          170 3) ∧
    put_ref (cache16 [10, 20, 30, 40, 50, 60, 70, 80, 90, 100, 110, 120, 130, 140, 150, 160])
        170 3
      = (2, cache16 [10, 20, 30, 170, 50, 60, 70, 80, 90, 100, 110, 120, 130, 140, 150, 160],
          40) :=
  ⟨wf_cache16 _ rfl,
    put_refines_reference (const_hash 0) 17 _ 170 3 (wf_cache16 _ rfl) (by decide) (by decide)
      (by decide),
    by decide⟩

/-- C2: idempotence of `put`. On a valid cache, for a non-zero payload `v` and
any hash argument `h`, the first of two back-to-back calls `put(v, h)` returns
a result `r`, which is InsertedEmpty (1) or InsertedEvicted (2) whenever no
slot of the home neighbourhood held `v`; the second call, on the cache left by
the first, returns Found (0) and leaves the cache, table included, and `*data`
unchanged. -/
theorem put_idempotent (hash_mul : List Nat → Nat → Nat) (fuel : Nat) (dbs : llsimplecache)
    (v h : Nat) (hwf : WF dbs) (hv : v ≠ 0) (hfuel : 17 ≤ fuel) :
    ∃ r dbs1 x, llsimplecache_put hash_mul fuel dbs v h = Res.ok (r, dbs1, x) ∧
      ((∀ i ∈ walk (put_hash hash_mul v h &&& dbs.mask), slot dbs.table i ≠ v) →
        r = 1 ∨ r = 2) ∧
      llsimplecache_put hash_mul fuel dbs1 v h = Res.ok (0, dbs1, v) := by
  have hhome := home_lt dbs (put_hash hash_mul v h) hwf
  rcases put_cases hash_mul fuel dbs v h hwf hv hfuel with
    ⟨k, h1, _, h3, h4⟩ | ⟨k, h1, h2, _, h4⟩ | ⟨h1, h2⟩
  · refine ⟨0, dbs, v, h4, ?_, h4⟩
    intro hno
    exact absurd h3 (hno _ (by
      simp only [walk, List.mem_map, List.mem_range]
      exact ⟨k, h1, rfl⟩))
  · refine ⟨1, _, v, h4, fun _ => Or.inl rfl, ?_⟩
    have hlen := walk_slot_lt dbs _ k hwf hhome.2
    apply put_found_of_chain hash_mul fuel _ v h k (wf_set dbs _ v hwf) hv hfuel h1
    · exact slot_set_same _ _ _ hlen
    · intro j hj
      exact slot_set_ne_zero _ _ _ _ hv (h2 j hj).1
  · refine ⟨2, _, _, h2, fun _ => Or.inr rfl, ?_⟩
    have hlen : put_hash hash_mul v h &&& dbs.mask < dbs.table.length := by
      rw [hwf.2.2.2.1]; exact hhome.2
    apply put_found_of_chain hash_mul fuel _ v h 0 (wf_set dbs _ v hwf) hv hfuel (by decide)
    · show slot (dbs.table.set _ v) (walk_slot _ 0) = v
      rw [walk_slot_zero]
      exact slot_set_same _ _ _ hlen
    · intro j hj
      omega

/-- Instance of C2: payload 7 absent from a partly filled table, derived hash
(hash argument 0). -/
theorem put_idempotent_witness :
    WF (cache16 [0, 0, 0, 0, 0, 5, 6, 0, 0, 0, 0, 0, 0, 0, 0, 0]) ∧
    ∃ r dbs1 x,
      llsimplecache_put (const_hash 5) 17
          (cache16 [0, 0, 0, 0, 0, 5, 6, 0, 0, 0, 0, 0, 0, 0, 0, 0]) 7 0 = Res.ok (r, dbs1, x) ∧
      ((∀ i ∈ walk (put_hash (const_hash 5) 7 0 &&&
            (cache16 [0, 0, 0, 0, 0, 5, 6, 0, 0, 0, 0, 0, 0, 0, 0, 0]).mask),
          slot (cache16 [0, 0, 0, 0, 0, 5, 6, 0, 0, 0, 0, 0, 0, 0, 0, 0]).table i ≠ 7) →
        r = 1 ∨ r = 2) ∧
      llsimplecache_put (const_hash 5) 17 dbs1 7 0 = Res.ok (0, dbs1, 7) :=
  ⟨wf_cache16 _ rfl,
    put_idempotent (const_hash 5) 17 _ 7 0 (wf_cache16 _ rfl) (by decide) (by decide)⟩

/-- C3 (as stated, refuted): with hash arguments chosen freely, the two calls
`put(5, 3)`, `put(5, 1)` on a new cache of capacity 16 store the payload 5 in
slots 3 and 1; and even with one hash per payload, a range clear of slot 0
alone lets `put(9, 16)` store a second copy of 9. -/
theorem no_duplicates_counterexample :
    llsimplecache_create 16 none 0 = some (cache16 (List.replicate 16 0)) ∧
    run (const_hash 0) 17 (cache16 (List.replicate 16 0)) [Op.put 5 3, Op.put 5 1]
      = Res.ok (cache16 [0, 5, 0, 5, 0, 0, 0, 0, 0, 0, 0, 0, 0, 0, 0, 0]) ∧
    ¬ no_dup [0, 5, 0, 5, 0, 0, 0, 0, 0, 0, 0, 0, 0, 0, 0, 0] ∧
    run (const_hash 0) 17 (cache16 (List.replicate 16 0))
        [Op.put 7 16, Op.put 9 16, Op.clear_range 0 1, Op.put 9 16]
      = Res.ok (cache16 [9, 9, 0, 0, 0, 0, 0, 0, 0, 0, 0, 0, 0, 0, 0, 0]) ∧
    ¬ no_dup [9, 9, 0, 0, 0, 0, 0, 0, 0, 0, 0, 0, 0, 0, 0, 0] := by
  refine ⟨by decide, by decide, ?_, by decide, ?_⟩
  · intro h
    exact absurd (h 1 3 (by decide) (by decide) (by decide) (by decide)) (by decide)
  · intro h
    exact absurd (h 0 1 (by decide) (by decide) (by decide) (by decide)) (by decide)

/-- C3 (amended): from a newly created cache, every single-threaded sequence
of `put` calls with non-zero payloads whose hash argument is a fixed function
`g` of the payload, of `clear` calls and of range clears over whole
neighbourhoods (first and count multiples of 16, range inside the table)
returns, given `capacity + 1` units of fuel, and in the state it reaches no
non-zero payload is stored in two different slots. -/
theorem no_duplicates_consistent_hash (hash_mul : List Nat → Nat → Nat) (g : Nat → Nat)
    (fuel c : Nat) (cb : Option Nat) (ctx : Nat) (dbs0 : llsimplecache) (ops : List Op)
    (hc : llsimplecache_create c cb ctx = some dbs0)
    (hops : ∀ op ∈ ops, op_ok g dbs0.cache_size op)
    (hfuel : dbs0.cache_size + 1 ≤ fuel) :
    ∃ dbs, run hash_mul fuel dbs0 ops = Res.ok dbs ∧ no_dup dbs.table := by
  obtain ⟨hwf, _, htab, _, _⟩ := create_wf c cb ctx dbs0 hc
  obtain ⟨hinv, hnd⟩ := inv_of_empty (fun x => put_hash hash_mul x (g x)) dbs0 htab
  obtain ⟨dbs, e, _, _, _, r⟩ :=
    run_preserves_inv hash_mul g fuel ops dbs0 hwf hops hfuel hinv hnd
  exact ⟨dbs, e, r⟩

/-- Instance of C3 (amended): capacity 16, every payload put with hash 3. -/
theorem no_duplicates_consistent_hash_witness :
    llsimplecache_create 16 none 0 = some (cache16 (List.replicate 16 0)) ∧
    (∀ op ∈ [Op.put 5 3, Op.put 9 3, Op.put 5 3, Op.clear_range 0 16, Op.put 9 3, Op.clear,
        Op.put 5 3], op_ok (fun _ => 3) (cache16 (List.replicate 16 0)).cache_size op) ∧
    ∃ dbs, run (const_hash 0) 17 (cache16 (List.replicate 16 0))
        [Op.put 5 3, Op.put 9 3, Op.put 5 3, Op.clear_range 0 16, Op.put 9 3, Op.clear,
          Op.put 5 3] = Res.ok dbs ∧ no_dup dbs.table :=
  ⟨by decide, by simp [op_ok, cache16],
    no_duplicates_consistent_hash (const_hash 0) (fun _ => 3) 17 16 none 0
      (cache16 (List.replicate 16 0)) _ (by decide) (by simp [op_ok, cache16]) (by decide)⟩

/-- C4 (as stated, refuted): after `put(7, 3)`, `put(7, 1)` and fourteen more
puts a new cache of capacity 16 is full and holds 7 in slots 1 and 3; then
`put(99, 1)` returns InsertedEvicted(7) although 7 is still stored in slot 3. -/
theorem eviction_accounting_counterexample :
    llsimplecache_create 16 none 0 = some (cache16 (List.replicate 16 0)) ∧
    run (const_hash 0) 17 (cache16 (List.replicate 16 0))
        [Op.put 7 3, Op.put 7 1, Op.put 101 1, Op.put 102 1, Op.put 103 1, Op.put 104 1,
          Op.put 105 1, Op.put 106 1, Op.put 107 1, Op.put 108 1, Op.put 109 1, Op.put 110 1,
          Op.put 111 1, Op.put 112 1, Op.put 113 1, Op.put 114 1]
      = Res.ok (cache16
          [114, 7, 101, 7, 102, 103, 104, 105, 106, 107, 108, 109, 110, 111, 112, 113]) ∧
    llsimplecache_put (const_hash 0) 17
        (cache16 [114, 7, 101, 7, 102, 103, 104, 105, 106, 107, 108, 109, 110, 111, 112, 113])
        99 1
      = Res.ok (2, cache16
          [114, 99, 101, 7, 102, 103, 104, 105, 106, 107, 108, 109, 110, 111, 112, 113], 7) ∧
    7 ∈ [114, 99, 101, 7, 102, 103, 104, 105, 106, 107, 108, 109, 110, 111, 112, 113] := by
  refine ⟨by decide, by decide, by decide, by decide⟩

/-- C4 (amended): in every state reached from a newly created cache by `put`
calls with non-zero payloads, a `put` of a non-zero payload `d` that returns
InsertedEvicted(x) found `x`, a non-zero value other than `d`, in the home
slot, so `x` was stored in the table before the call; after the call the home
slot holds `d`, `x` is stored nowhere in the table provided the home slot was
the only slot holding `x` before the call, and the number of non-EMPTY slots of
the home neighbourhood is unchanged (it is 16). -/
theorem eviction_accounting (hash_mul : List Nat → Nat → Nat) (fuel c : Nat)
    (cb : Option Nat) (ctx : Nat) (dbs0 dbs dbs1 : llsimplecache) (ops : List Op)
    (d h x : Nat)
    (hc : llsimplecache_create c cb ctx = some dbs0)
    (hops : ∀ op ∈ ops, ∃ p q, p ≠ 0 ∧ op = Op.put p q)
    (hfuel : 17 ≤ fuel)
    (hrun : run hash_mul fuel dbs0 ops = Res.ok dbs)
    (hd : d ≠ 0)
    (hput : llsimplecache_put hash_mul fuel dbs d h = Res.ok (2, dbs1, x)) :
    x ∈ dbs.table ∧ x ≠ 0 ∧ x ≠ d ∧
      slot dbs.table (put_hash hash_mul d h &&& dbs.mask) = x ∧
      slot dbs1.table (put_hash hash_mul d h &&& dbs.mask) = d ∧
      ((∀ i, i < dbs.table.length → slot dbs.table i = x →
          i = put_hash hash_mul d h &&& dbs.mask) →
        ∀ i, slot dbs1.table i ≠ x) ∧
      occupied dbs1.table (put_hash hash_mul d h &&& dbs.mask) =
        occupied dbs.table (put_hash hash_mul d h &&& dbs.mask) ∧
      occupied dbs.table (put_hash hash_mul d h &&& dbs.mask) = 16 := by
  have hwf : WF dbs :=
    run_puts_wf hash_mul fuel hfuel ops dbs0 dbs (create_wf c cb ctx dbs0 hc).1 hops hrun
  obtain ⟨hfull, e1, e2⟩ := put_evicted_inv hash_mul fuel dbs d h dbs1 x hwf hd hfuel hput
  have hhome := home_lt dbs (put_hash hash_mul d h) hwf
  have hlen : put_hash hash_mul d h &&& dbs.mask < dbs.table.length := by
    rw [hwf.2.2.2.1]; exact hhome.2
  have h0 := hfull 0 (by decide)
  rw [walk_slot_zero] at h0
  subst e1 e2
  have hocc := occupied_full dbs.table _ (fun j hj => (hfull j hj).1)
  refine ⟨slot_mem _ _ hlen, h0.1, h0.2, rfl, slot_set_same _ _ _ hlen, ?_, ?_, hocc⟩
  · intro huniq i hval
    simp only [with_table] at hval
    rw [slot_set] at hval
    by_cases hi : put_hash hash_mul d h &&& dbs.mask = i
    · simp only [hi, true_and] at hval
      rw [← hi, if_pos hlen] at hval
      exact h0.2 hval.symm
    · simp only [hi, false_and, if_false] at hval
      by_cases hil : i < dbs.table.length
      · exact hi (huniq i hil hval).symm
      · have : slot dbs.table i = 0 := by
          simp [slot, List.getD_eq_getElem?_getD, List.getElem?_eq_none (Nat.le_of_not_lt hil)]
        exact h0.1 (hval.symm.trans this)
  · rw [hocc]
    exact occupied_full _ _ (fun j hj => slot_set_ne_zero _ _ _ _ hd (hfull j hj).1)

/-- Instance of C4 (amended): the full table 10, 20, ..., 160 reached by 16
puts with hash 16, then `put(170, 3)`, which evicts 40. -/
theorem eviction_accounting_witness :
    llsimplecache_create 16 none 0 = some (cache16 (List.replicate 16 0)) ∧
    run (const_hash 0) 17 (cache16 (List.replicate 16 0))
        [Op.put 10 16, Op.put 20 16, Op.put 30 16, Op.put 40 16, Op.put 50 16, Op.put 60 16,
          Op.put 70 16, Op.put 80 16, Op.put 90 16, Op.put 100 16, Op.put 110 16,
          Op.put 120 16, Op.put 130 16, Op.put 140 16, Op.put 150 16, Op.put 160 16]
      = Res.ok (cache16 [10, 20, 30, 40, 50, 60, 70, 80, 90, 100, 110, 120, 130, 140, 150, 160])
    ∧ llsimplecache_put (const_hash 0) 17
        (cache16 [10, 20, 30, 40, 50, 60, 70, 80, 90, 100, 110, 120, 130, 140, 150, 160]) 170 3
      = Res.ok (2,
          cache16 [10, 20, 30, 170, 50, 60, 70, 80, 90, 100, 110, 120, 130, 140, 150, 160], 40)
    ∧ (40 ∈ [10, 20, 30, 40, 50, 60, 70, 80, 90, 100, 110, 120, 130, 140, 150, 160] ∧
      40 ≠ 0 ∧ 40 ≠ 170 ∧
      slot [10, 20, 30, 40, 50, 60, 70, 80, 90, 100, 110, 120, 130, 140, 150, 160] 3 = 40 ∧
      slot [10, 20, 30, 170, 50, 60, 70, 80, 90, 100, 110, 120, 130, 140, 150, 160] 3 = 170 ∧
      ((∀ i, i < 16 →
          slot [10, 20, 30, 40, 50, 60, 70, 80, 90, 100, 110, 120, 130, 140, 150, 160] i = 40 →
          i = 3) →
        ∀ i, slot [10, 20, 30, 170, 50, 60, 70, 80, 90, 100, 110, 120, 130, 140, 150, 160] i
          ≠ 40) ∧
      occupied [10, 20, 30, 170, 50, 60, 70, 80, 90, 100, 110, 120, 130, 140, 150, 160] 3 =
        occupied [10, 20, 30, 40, 50, 60, 70, 80, 90, 100, 110, 120, 130, 140, 150, 160] 3 ∧
      occupied [10, 20, 30, 40, 50, 60, 70, 80, 90, 100, 110, 120, 130, 140, 150, 160] 3 = 16) :=
  ⟨by decide, by decide, by decide,
    eviction_accounting (const_hash 0) 17 16 none 0 (cache16 (List.replicate 16 0))
      (cache16 [10, 20, 30, 40, 50, 60, 70, 80, 90, 100, 110, 120, 130, 140, 150, 160])
      (cache16 [10, 20, 30, 170, 50, 60, 70, 80, 90, 100, 110, 120, 130, 140, 150, 160])
      [Op.put 10 16, Op.put 20 16, Op.put 30 16, Op.put 40 16, Op.put 50 16, Op.put 60 16,
        Op.put 70 16, Op.put 80 16, Op.put 90 16, Op.put 100 16, Op.put 110 16,
        Op.put 120 16, Op.put 130 16, Op.put 140 16, Op.put 150 16, Op.put 160 16]
      170 3 40 (by decide) (by simp) (by decide) (by decide) (by decide) (by decide)⟩

/-- C5: on a newly created cache of capacity 16, for 17 pairwise distinct
non-zero payloads `p1, ..., p17` and one non-zero hash `h` passed to all calls,
the calls `put(p1, h)`, ..., `put(p16, h)` each return InsertedEmpty (1, with
`*data` unchanged) and `put(p17, h)` returns InsertedEvicted (2) with `p1` in
`*data`; afterwards the table is a rearrangement of `p2, ..., p17`. -/
theorem fill_then_evict (hash_mul : List Nat → Nat → Nat) (fuel : Nat) (cb : Option Nat)
    (ctx : Nat) (dbs0 : llsimplecache) (ps : List Nat) (h : Nat)
    (hc : llsimplecache_create 16 cb ctx = some dbs0)
    (hlen : ps.length = 17) (hnz : ∀ p ∈ ps, p ≠ 0) (hnd : ps.Nodup) (hh : h ≠ 0)
    (hfuel : 17 ≤ fuel) :
    ∃ final, put_seq hash_mul fuel h dbs0 ps =
        Res.ok ((ps.take 16).map (fun p => (1, p)) ++ [(2, ps.getD 0 0)], final) ∧
      final.table.Perm ps.tail := by
  have hwf := (create_wf 16 cb ctx dbs0 hc).1
  rw [create_16] at hc
  injection hc with hc
  subst hc
  have hmask : h &&& 15 < 16 := lt_of_le_of_lt Nat.and_le_right (by decide)
  obtain ⟨final, e, l1, v0, v1⟩ :=
    fill_then_trade hash_mul fuel h hh hfuel _ ps hwf
      (fun j _ => by
        show slot (List.replicate 16 0) _ = 0
        simp only [slot, List.getD_eq_getElem?_getD, List.getElem?_replicate]
        split <;> rfl)
      hlen hnz hnd
  refine ⟨final, e, ?_⟩
  have hl16 : final.table.length = 16 := by simpa using l1
  have hmap : (walk (h &&& 15)).map (slot final.table) =
      (List.range 16).map (fun j => if j = 0 then ps.getD 16 0 else ps.getD j 0) := by
    simp only [walk, List.map_map]
    apply List.map_congr_left
    intro j hj
    have hj16 : j < 16 := List.mem_range.mp hj
    by_cases hj0 : j = 0
    · subst hj0; simpa using v0
    · simpa [hj0] using v1 j (Nat.pos_of_ne_zero hj0) hj16
  have h1 : final.table.Perm ((walk (h &&& 15)).map (slot final.table)) := by
    nth_rewrite 1 [table_eq_map_slot final.table hl16]
    exact ((walk_perm (h &&& 15) hmask).map (slot final.table)).symm
  rw [hmap] at h1
  have h2 := rotate17_perm (fun i => ps.getD i 0)
  rw [← list17 ps hlen] at h2
  exact h1.trans h2

/-- Instance of C5: the payloads 10, 20, ..., 170 with hash 3; the evicted
value is 10. -/
theorem fill_then_evict_witness :
    llsimplecache_create 16 none 0 = some (cache16 (List.replicate 16 0)) ∧
    (∃ final, put_seq (const_hash 0) 17 3 (cache16 (List.replicate 16 0))
        [10, 20, 30, 40, 50, 60, 70, 80, 90, 100, 110, 120, 130, 140, 150, 160, 170] =
        Res.ok (([10, 20, 30, 40, 50, 60, 70, 80, 90, 100, 110, 120, 130, 140, 150, 160, 170].take
            16).map (fun p => (1, p)) ++
          [(2, [10, 20, 30, 40, 50, 60, 70, 80, 90, 100, 110, 120, 130, 140, 150, 160,
            170].getD 0 0)], final) ∧
      final.table.Perm
        [10, 20, 30, 40, 50, 60, 70, 80, 90, 100, 110, 120, 130, 140, 150, 160, 170].tail) ∧
    [10, 20, 30, 40, 50, 60, 70, 80, 90, 100, 110, 120, 130, 140, 150, 160, 170].getD 0 0 = 10 :=
  ⟨by decide,
    fill_then_evict (const_hash 0) 17 none 0 (cache16 (List.replicate 16 0))
      [10, 20, 30, 40, 50, 60, 70, 80, 90, 100, 110, 120, 130, 140, 150, 160, 170] 3
      (by decide) (by decide) (by decide) (by decide) (by decide) (by decide),
    by decide⟩

/-- C6 (as stated, refuted): in the capacity-16 scenario with hash 1 the 17th
put finds the neighbourhood full, with home slot 1 and line-aligned first slot
0; it overwrites slot 1 and returns 10, the previous value of slot 1, while
slot 0 held 160 before and still holds 160, not 170, afterwards. -/
theorem evict_first_slot_counterexample :
    put_seq (const_hash 0) 17 1 (cache16 (List.replicate 16 0))
        [10, 20, 30, 40, 50, 60, 70, 80, 90, 100, 110, 120, 130, 140, 150, 160, 170] =
      Res.ok (([10, 20, 30, 40, 50, 60, 70, 80, 90, 100, 110, 120, 130, 140, 150, 160, 170].take
          16).map (fun p => (1, p)) ++ [(2, 10)],
        cache16 [160, 170, 20, 30, 40, 50, 60, 70, 80, 90, 100, 110, 120, 130, 140, 150]) ∧
    llsimplecache_put (const_hash 0) 17
        (cache16 [160, 10, 20, 30, 40, 50, 60, 70, 80, 90, 100, 110, 120, 130, 140, 150]) 170 1 =
      Res.ok (2, cache16 [160, 170, 20, 30, 40, 50, 60, 70, 80, 90, 100, 110, 120, 130, 140, 150], 10) ∧
    (1 &&& (cache16 [160, 10, 20, 30, 40, 50, 60, 70, 80, 90, 100, 110, 120, 130, 140, 150]).mask) / 16 * 16 = 0 ∧
    slot [160, 10, 20, 30, 40, 50, 60, 70, 80, 90, 100, 110, 120, 130, 140, 150] 0 = 160 ∧
    slot [160, 170, 20, 30, 40, 50, 60, 70, 80, 90, 100, 110, 120, 130, 140, 150] 0 = 160 := by
  refine ⟨by decide, by decide, by decide, by decide, by decide⟩

/-- C6 (amended): on a valid cache, for a non-zero payload `d` and any hash
argument, if no slot of the home neighbourhood is EMPTY or holds `d`, then
`put` returns InsertedEvicted with the previous value of the home slot (the
slot `hash & mask` where the walk starts), stores `d` in the home slot and
leaves every other slot unchanged; and in the capacity-16 scenario with the
payloads 10, 20, ..., 170 all put with one non-zero hash `h2`, slot `h2 & 15`
holds 170 after the 17th put. -/
theorem evict_home_slot (hash_mul : List Nat → Nat → Nat) (fuel : Nat) (dbs : llsimplecache)
    (d h : Nat) (cb : Option Nat) (ctx : Nat) (dbs0 : llsimplecache) (h2 : Nat)
    (hwf : WF dbs) (hd : d ≠ 0) (hfuel : 17 ≤ fuel)
    (hfull : ∀ i ∈ walk (put_hash hash_mul d h &&& dbs.mask),
      slot dbs.table i ≠ 0 ∧ slot dbs.table i ≠ d)
    (hc : llsimplecache_create 16 cb ctx = some dbs0) (hh : h2 ≠ 0) :
    (∃ dbs1, llsimplecache_put hash_mul fuel dbs d h =
        Res.ok (2, dbs1, slot dbs.table (put_hash hash_mul d h &&& dbs.mask)) ∧
      slot dbs1.table (put_hash hash_mul d h &&& dbs.mask) = d ∧
      ∀ i, i ≠ put_hash hash_mul d h &&& dbs.mask → slot dbs1.table i = slot dbs.table i) ∧
    (∃ rs final, put_seq hash_mul fuel h2 dbs0
        [10, 20, 30, 40, 50, 60, 70, 80, 90, 100, 110, 120, 130, 140, 150, 160, 170] =
        Res.ok (rs, final) ∧
      slot final.table (h2 &&& 15) = 170) := by
  constructor
  · have hsc : scanned dbs.table d (put_hash hash_mul d h &&& dbs.mask) 16 := by
      intro j hj
      apply hfull
      simp only [walk, List.mem_map, List.mem_range]
      exact ⟨j, hj, rfl⟩
    have hlen : put_hash hash_mul d h &&& dbs.mask < dbs.table.length := by
      rw [hwf.2.2.2.1]; exact (home_lt dbs (put_hash hash_mul d h) hwf).2
    refine ⟨_, put_evict_of_full hash_mul fuel dbs d h hwf hd hfuel hsc,
      slot_set_same _ _ _ hlen, ?_⟩
    intro i hi
    show slot (dbs.table.set _ d) i = slot dbs.table i
    rw [slot_set]
    simp [Ne.symm hi]
  · have hwf0 := (create_wf 16 cb ctx dbs0 hc).1
    rw [create_16] at hc
    injection hc with hc
    subst hc
    obtain ⟨final, e, _, v0, _⟩ :=
      fill_then_trade hash_mul fuel h2 hh hfuel _
        [10, 20, 30, 40, 50, 60, 70, 80, 90, 100, 110, 120, 130, 140, 150, 160, 170] hwf0
        (fun j _ => by
          show slot (List.replicate 16 0) _ = 0
          simp only [slot, List.getD_eq_getElem?_getD, List.getElem?_replicate]
          split <;> rfl)
        (by decide) (by decide) (by decide)
    refine ⟨_, final, e, ?_⟩
    rw [walk_slot_zero] at v0
    exact v0

/-- Instance of C6 (amended): the full table of the scenario with hash 1, whose
home slot 1 is traded. -/
theorem evict_home_slot_witness :
    WF (cache16 [160, 10, 20, 30, 40, 50, 60, 70, 80, 90, 100, 110, 120, 130, 140, 150]) ∧
    (∀ i ∈ walk (put_hash (const_hash 0) 170 1 &&&
          (cache16 [160, 10, 20, 30, 40, 50, 60, 70, 80, 90, 100, 110, 120, 130, 140, 150]).mask),
      slot (cache16 [160, 10, 20, 30, 40, 50, 60, 70, 80, 90, 100, 110, 120, 130, 140, 150]).table i ≠ 0 ∧
      slot (cache16 [160, 10, 20, 30, 40, 50, 60, 70, 80, 90, 100, 110, 120, 130, 140, 150]).table i ≠ 170) ∧
    llsimplecache_create 16 none 0 = some (cache16 (List.replicate 16 0)) ∧
    ((∃ dbs1, llsimplecache_put (const_hash 0) 17
          (cache16 [160, 10, 20, 30, 40, 50, 60, 70, 80, 90, 100, 110, 120, 130, 140, 150]) 170 1 =
        Res.ok (2, dbs1, slot (cache16 [160, 10, 20, 30, 40, 50, 60, 70, 80, 90, 100, 110, 120, 130, 140, 150]).table
          (put_hash (const_hash 0) 170 1 &&&
            (cache16 [160, 10, 20, 30, 40, 50, 60, 70, 80, 90, 100, 110, 120, 130, 140, 150]).mask)) ∧
      slot dbs1.table (put_hash (const_hash 0) 170 1 &&&
        (cache16 [160, 10, 20, 30, 40, 50, 60, 70, 80, 90, 100, 110, 120, 130, 140, 150]).mask) = 170 ∧
      ∀ i, i ≠ put_hash (const_hash 0) 170 1 &&&
          (cache16 [160, 10, 20, 30, 40, 50, 60, 70, 80, 90, 100, 110, 120, 130, 140, 150]).mask →
        slot dbs1.table i = slot (cache16 [160, 10, 20, 30, 40, 50, 60, 70, 80, 90, 100, 110, 120, 130, 140, 150]).table i) ∧
    (∃ rs final, put_seq (const_hash 0) 17 1 (cache16 (List.replicate 16 0))
        [10, 20, 30, 40, 50, 60, 70, 80, 90, 100, 110, 120, 130, 140, 150, 160, 170] =
        Res.ok (rs, final) ∧
      slot final.table (1 &&& 15) = 170)) :=
  ⟨wf_cache16 _ rfl, by decide, by decide,
    evict_home_slot (const_hash 0) 17
      (cache16 [160, 10, 20, 30, 40, 50, 60, 70, 80, 90, 100, 110, 120, 130, 140, 150]) 170 1 none 0
      (cache16 (List.replicate 16 0)) 1 (wf_cache16 _ rfl) (by decide) (by decide) (by decide)
      (by decide) (by decide)⟩

/-- C7 (as stated, refuted): with a hash function whose value on the payload is
2, `put(5, 0)` on an EMPTY cache of capacity 16 stores 5 in slot 2, while
`put(5, 1)` stores it in slot 1. -/
theorem hash_remap_counterexample :
    llsimplecache_put (const_hash 2) 17 (cache16 (List.replicate 16 0)) 5 0 =
      Res.ok (1, cache16 [0, 0, 5, 0, 0, 0, 0, 0, 0, 0, 0, 0, 0, 0, 0, 0], 5) ∧
    llsimplecache_put (const_hash 2) 17 (cache16 (List.replicate 16 0)) 5 1 =
      Res.ok (1, cache16 [0, 5, 0, 0, 0, 0, 0, 0, 0, 0, 0, 0, 0, 0, 0, 0], 5) ∧
    llsimplecache_put (const_hash 2) 17 (cache16 (List.replicate 16 0)) 5 0 ≠
      llsimplecache_put (const_hash 2) 17 (cache16 (List.replicate 16 0)) 5 1 := by
  refine ⟨by decide, by decide, by decide⟩

/-- C7 (amended): for every cache state and payload whose external hash has
its low 32 bits equal to 0, `put` called with hash argument 0 has the same
outcome (result, final cache, `*data`) as `put` called with hash 1, and its
home slot is `1 & mask`. -/
theorem hash_remap (hash_mul : List Nat → Nat → Nat) (fuel : Nat) (dbs : llsimplecache)
    (d : Nat) (hz : hash_mul (word_bytes d) 4 % 2 ^ 32 = 0) :
    llsimplecache_put hash_mul fuel dbs d 0 = llsimplecache_put hash_mul fuel dbs d 1 ∧
      put_hash hash_mul d 0 &&& dbs.mask = 1 &&& dbs.mask := by
  have e0 : put_hash hash_mul d 0 = 1 := by rw [put_hash_zero, if_pos hz]
  have e1 : put_hash hash_mul d 1 = 1 := put_hash_of_ne_zero hash_mul d 1 (by decide)
  exact ⟨by simp only [llsimplecache_put, e0, e1], by rw [e0]⟩

/-- Instance of C7 (amended): a hash function with value `2 ^ 32`. -/
theorem hash_remap_witness :
    const_hash 4294967296 (word_bytes 5) 4 % 2 ^ 32 = 0 ∧
    (llsimplecache_put (const_hash 4294967296) 17 (cache16 (List.replicate 16 0)) 5 0 =
        llsimplecache_put (const_hash 4294967296) 17 (cache16 (List.replicate 16 0)) 5 1 ∧
      put_hash (const_hash 4294967296) 5 0 &&& (cache16 (List.replicate 16 0)).mask =
        1 &&& (cache16 (List.replicate 16 0)).mask) :=
  ⟨by decide,
    hash_remap (const_hash 4294967296) 17 (cache16 (List.replicate 16 0)) 5 (by decide)⟩

/-- C8: for every cache state and payload `d`, `put(d, 0)` has the outcome of
`put(d, h1)` where `h1` is the low 32 bits of the external hash function on the
4 bytes of `d`, or 1 if those bits are 0; and for every non-zero hash argument
`h` the hash used is `h` itself, so the home slot is `h & mask`, and the
outcome is the same whatever the external hash function is. -/
theorem hash_derivation (hash_mul : List Nat → Nat → Nat) (fuel : Nat) (dbs : llsimplecache)
    (d : Nat) :
    llsimplecache_put hash_mul fuel dbs d 0 =
        llsimplecache_put hash_mul fuel dbs d
          (if hash_mul (word_bytes d) 4 % 2 ^ 32 = 0 then 1
            else hash_mul (word_bytes d) 4 % 2 ^ 32) ∧
      ∀ h, h ≠ 0 →
        put_hash hash_mul d h &&& dbs.mask = h &&& dbs.mask ∧
        ∀ other : List Nat → Nat → Nat,
          llsimplecache_put hash_mul fuel dbs d h = llsimplecache_put other fuel dbs d h := by
  constructor
  · have e : put_hash hash_mul d 0 = put_hash hash_mul d
        (if hash_mul (word_bytes d) 4 % 2 ^ 32 = 0 then 1
          else hash_mul (word_bytes d) 4 % 2 ^ 32) := by
      rw [put_hash_zero]
      by_cases hz : hash_mul (word_bytes d) 4 % 2 ^ 32 = 0
      · rw [if_pos hz, put_hash_of_ne_zero hash_mul d 1 (by decide)]
      · rw [if_neg hz, put_hash_of_ne_zero hash_mul d _ hz]
    simp only [llsimplecache_put, e]
  · intro h hh
    refine ⟨by rw [put_hash_of_ne_zero hash_mul d h hh], fun other => ?_⟩
    simp only [llsimplecache_put, put_hash_of_ne_zero _ d h hh]

/-- Instance of C8: payload 5, hash function with value 7, hash argument 3. -/
theorem hash_derivation_witness :
    llsimplecache_put (const_hash 7) 17 (cache16 (List.replicate 16 0)) 5 0 =
        llsimplecache_put (const_hash 7) 17 (cache16 (List.replicate 16 0)) 5 7 ∧
    put_hash (const_hash 7) 5 3 &&& (cache16 (List.replicate 16 0)).mask = 3 ∧
    llsimplecache_put (const_hash 7) 17 (cache16 (List.replicate 16 0)) 5 3 =
        llsimplecache_put (const_hash 9) 17 (cache16 (List.replicate 16 0)) 5 3 :=
  ⟨(hash_derivation (const_hash 7) 17 (cache16 (List.replicate 16 0)) 5).1,
    ((hash_derivation (const_hash 7) 17 (cache16 (List.replicate 16 0)) 5).2 3
      (by decide)).1,
    ((hash_derivation (const_hash 7) 17 (cache16 (List.replicate 16 0)) 5).2 3
      (by decide)).2 (const_hash 9)⟩

/-- C9: for every cache state, a single-threaded `llsimplecache_clear` returns
(given `capacity + 1` units of fuel) a cache whose table is all zeros, so every
slot reads 0; with a registered callback the calls made are exactly one call
(stored function, stored context, slot value) per slot that was non-zero, in
increasing slot order, and none for EMPTY slots; without a callback no call is
made. -/
theorem clear_complete (fuel : Nat) (dbs : llsimplecache)
    (hlen : dbs.table.length = dbs.cache_size) (h64 : dbs.cache_size < 2 ^ 64)
    (hfuel : dbs.cache_size + 1 ≤ fuel) :
    ∃ dbs1, llsimplecache_clear fuel dbs =
        Res.ok (dbs1,
          match dbs.cb_delete with
          | none => []
          | some f => (dbs.table.filter (fun v => decide (v ≠ 0))).map
              (fun v => (f, dbs.cb_data, v))) ∧
      dbs1.table = List.replicate dbs.cache_size 0 ∧ ∀ i, slot dbs1.table i = 0 := by
  obtain ⟨t1, e1, e2, e3⟩ :=
    clear_partial_eq fuel dbs 0 dbs.cache_size hlen h64 (by omega) hfuel
  have htake : (dbs.table.drop 0).take dbs.cache_size = dbs.table := by
    rw [List.drop_zero, ← hlen, List.take_length]
  rw [htake] at e1
  have hz : ∀ j, slot t1 j = 0 := by
    intro j
    rw [e3 j]
    by_cases hj : j < dbs.cache_size
    · rw [if_pos ⟨Nat.zero_le j, by omega⟩]
    · rw [if_neg (by omega)]
      simp [slot, List.getD_eq_getElem?_getD, List.getElem?_eq_none (by omega : dbs.table.length ≤ j)]
  exact ⟨with_table dbs t1, e1, eq_replicate_of_slots t1 _ (e2.trans hlen) hz, hz⟩

/-- Instance of C9: a 16-slot cache with callback 7 and context 9 holding 10
in slot 1 and 3 in slot 11. -/
theorem clear_complete_witness :
    llsimplecache_clear 17 (cache16_cb [0, 10, 0, 0, 0, 0, 0, 0, 0, 0, 0, 3, 0, 0, 0, 0]) =
      Res.ok (cache16_cb (List.replicate 16 0), [(7, 9, 10), (7, 9, 3)]) ∧
    ∃ dbs1, llsimplecache_clear 17 (cache16_cb [0, 10, 0, 0, 0, 0, 0, 0, 0, 0, 0, 3, 0, 0, 0, 0]) =
        Res.ok (dbs1,
          match (cache16_cb [0, 10, 0, 0, 0, 0, 0, 0, 0, 0, 0, 3, 0, 0, 0, 0]).cb_delete with
          | none => []
          | some f => ((cache16_cb [0, 10, 0, 0, 0, 0, 0, 0, 0, 0, 0, 3, 0, 0, 0, 0]).table.filter (fun v => decide (v ≠ 0))).map
              (fun v => (f, (cache16_cb [0, 10, 0, 0, 0, 0, 0, 0, 0, 0, 0, 3, 0, 0, 0, 0]).cb_data, v))) ∧
      dbs1.table = List.replicate (cache16_cb [0, 10, 0, 0, 0, 0, 0, 0, 0, 0, 0, 3, 0, 0, 0, 0]).cache_size 0 ∧ ∀ i, slot dbs1.table i = 0 :=
  ⟨by decide, clear_complete 17 (cache16_cb [0, 10, 0, 0, 0, 0, 0, 0, 0, 0, 0, 3, 0, 0, 0, 0]) rfl (by decide) (by decide)⟩

/-- C10: for every cache state and every `first`, `count` with
`first + count <= capacity`, a single-threaded `llsimplecache_clear_partial`
returns (given `count + 1` units of fuel) a cache in which every slot of
`[first, first + count)` is 0 and every other slot, the table length, the
capacity, the mask and the callback fields are unchanged; every callback call
made carries the stored function and context and a non-zero value that was
stored in a slot of the range; and `llsimplecache_clear` is
`clear_partial(0, capacity)`. -/
theorem clear_partial_frame (fuel : Nat) (dbs : llsimplecache) (first count : Nat)
    (hlen : dbs.table.length = dbs.cache_size) (h64 : dbs.cache_size < 2 ^ 64)
    (hr : first + count ≤ dbs.cache_size) (hfuel : count + 1 ≤ fuel) :
    (∃ dbs1 tr, llsimplecache_clear_partial fuel dbs first count = Res.ok (dbs1, tr) ∧
      (∀ j, first ≤ j → j < first + count → slot dbs1.table j = 0) ∧
      (∀ j, ¬ (first ≤ j ∧ j < first + count) → slot dbs1.table j = slot dbs.table j) ∧
      dbs1.table.length = dbs.table.length ∧
      dbs1.cache_size = dbs.cache_size ∧ dbs1.mask = dbs.mask ∧
      dbs1.cb_delete = dbs.cb_delete ∧ dbs1.cb_data = dbs.cb_data ∧
      (∀ c ∈ tr, ∃ j, first ≤ j ∧ j < first + count ∧ slot dbs.table j ≠ 0 ∧
        some c.1 = dbs.cb_delete ∧ c.2 = (dbs.cb_data, slot dbs.table j))) ∧
    llsimplecache_clear fuel dbs = llsimplecache_clear_partial fuel dbs 0 dbs.cache_size := by
  refine ⟨?_, rfl⟩
  obtain ⟨t1, e1, e2, e3⟩ := clear_partial_eq fuel dbs first count hlen h64 hr hfuel
  refine ⟨with_table dbs t1, _, e1, ?_, ?_, e2, rfl, rfl, rfl, rfl, ?_⟩
  · intro j h1 h2
    show slot t1 j = 0
    rw [e3 j, if_pos ⟨h1, h2⟩]
  · intro j hj
    show slot t1 j = slot dbs.table j
    rw [e3 j, if_neg hj]
  · intro c hc
    cases hcb : dbs.cb_delete with
    | none =>
      rw [hcb] at hc
      exact absurd hc (List.not_mem_nil c)
    | some f =>
      rw [hcb] at hc
      simp only [release_calls, List.mem_map, List.mem_filter, decide_eq_true_eq] at hc
      obtain ⟨v, ⟨hv, hv0⟩, rfl⟩ := hc
      obtain ⟨j, h1, h2, h3⟩ := mem_range_slots dbs.table first count v hv
      exact ⟨j, h1, h2, by rw [h3]; exact hv0, rfl, by rw [h3]⟩

/-- Instance of C10: clearing the slots 1 to 3 of a 16-slot cache with
callback 7 and context 9. -/
theorem clear_partial_frame_witness :
    llsimplecache_clear_partial 4 (cache16_cb [5, 10, 0, 20, 30, 0, 0, 0, 0, 0, 0, 3, 0, 0, 0, 0]) 1 3 =
      Res.ok (cache16_cb [5, 0, 0, 0, 30, 0, 0, 0, 0, 0, 0, 3, 0, 0, 0, 0],
        [(7, 9, 10), (7, 9, 20)]) ∧
    ((∃ dbs1 tr, llsimplecache_clear_partial 4 (cache16_cb [5, 10, 0, 20, 30, 0, 0, 0, 0, 0, 0, 3, 0, 0, 0, 0]) 1 3 = Res.ok (dbs1, tr) ∧
      (∀ j, 1 ≤ j → j < 1 + 3 → slot dbs1.table j = 0) ∧
      (∀ j, ¬ (1 ≤ j ∧ j < 1 + 3) → slot dbs1.table j = slot (cache16_cb [5, 10, 0, 20, 30, 0, 0, 0, 0, 0, 0, 3, 0, 0, 0, 0]).table j) ∧
      dbs1.table.length = (cache16_cb [5, 10, 0, 20, 30, 0, 0, 0, 0, 0, 0, 3, 0, 0, 0, 0]).table.length ∧
      dbs1.cache_size = (cache16_cb [5, 10, 0, 20, 30, 0, 0, 0, 0, 0, 0, 3, 0, 0, 0, 0]).cache_size ∧ dbs1.mask = (cache16_cb [5, 10, 0, 20, 30, 0, 0, 0, 0, 0, 0, 3, 0, 0, 0, 0]).mask ∧
      dbs1.cb_delete = (cache16_cb [5, 10, 0, 20, 30, 0, 0, 0, 0, 0, 0, 3, 0, 0, 0, 0]).cb_delete ∧ dbs1.cb_data = (cache16_cb [5, 10, 0, 20, 30, 0, 0, 0, 0, 0, 0, 3, 0, 0, 0, 0]).cb_data ∧
      (∀ c ∈ tr, ∃ j, 1 ≤ j ∧ j < 1 + 3 ∧ slot (cache16_cb [5, 10, 0, 20, 30, 0, 0, 0, 0, 0, 0, 3, 0, 0, 0, 0]).table j ≠ 0 ∧
        some c.1 = (cache16_cb [5, 10, 0, 20, 30, 0, 0, 0, 0, 0, 0, 3, 0, 0, 0, 0]).cb_delete ∧ c.2 = ((cache16_cb [5, 10, 0, 20, 30, 0, 0, 0, 0, 0, 0, 3, 0, 0, 0, 0]).cb_data, slot (cache16_cb [5, 10, 0, 20, 30, 0, 0, 0, 0, 0, 0, 3, 0, 0, 0, 0]).table j))) ∧
    llsimplecache_clear 4 (cache16_cb [5, 10, 0, 20, 30, 0, 0, 0, 0, 0, 0, 3, 0, 0, 0, 0]) = llsimplecache_clear_partial 4 (cache16_cb [5, 10, 0, 20, 30, 0, 0, 0, 0, 0, 0, 3, 0, 0, 0, 0]) 0 (cache16_cb [5, 10, 0, 20, 30, 0, 0, 0, 0, 0, 0, 3, 0, 0, 0, 0]).cache_size) :=
  ⟨by decide, clear_partial_frame 4 (cache16_cb [5, 10, 0, 20, 30, 0, 0, 0, 0, 0, 0, 3, 0, 0, 0, 0]) 1 3 rfl (by decide) (by decide) (by decide)⟩

/-- C11: for every capacity that `llsimplecache_create` accepts, the created
cache has `mask == capacity - 1` and `capacity & mask == 0`, its table consists
of `capacity` slots that are all EMPTY (0), and the release callback and the
context are stored as given; and a returned `put`, `clear` or `clear_partial`,
on any cache state, leaves the capacity and the mask as they were. -/
theorem create_postcondition (hash_mul : List Nat → Nat → Nat) (fuel c : Nat)
    (cb : Option Nat) (ctx : Nat) (dbs : llsimplecache)
    (hc : llsimplecache_create c cb ctx = some dbs) :
    dbs.mask = dbs.cache_size - 1 ∧ dbs.cache_size &&& dbs.mask = 0 ∧
      dbs.table = List.replicate dbs.cache_size 0 ∧
      dbs.cb_delete = cb ∧ dbs.cb_data = ctx ∧
      (∀ (s s1 : llsimplecache) (d h r x : Nat),
        llsimplecache_put hash_mul fuel s d h = Res.ok (r, s1, x) →
          s1.cache_size = s.cache_size ∧ s1.mask = s.mask) ∧
      (∀ (s s1 : llsimplecache) (tr : List CbCall),
        llsimplecache_clear fuel s = Res.ok (s1, tr) →
          s1.cache_size = s.cache_size ∧ s1.mask = s.mask) ∧
      (∀ (s s1 : llsimplecache) (first count : Nat) (tr : List CbCall),
        llsimplecache_clear_partial fuel s first count = Res.ok (s1, tr) →
          s1.cache_size = s.cache_size ∧ s1.mask = s.mask) := by
  obtain ⟨⟨⟨k, hk⟩, _, hm, _, _⟩, h31, htab, hcb, hctx⟩ := create_wf c cb ctx dbs hc
  have h3 : (2:Nat) ^ 31 < 2 ^ 32 := by norm_num
  have hmask : dbs.mask = dbs.cache_size - 1 := by
    rw [hm]; exact Nat.mod_eq_of_lt (by omega)
  refine ⟨hmask, ?_, htab, hcb, hctx, ?_, ?_, ?_⟩
  · rw [hmask, hk, Nat.and_pow_two_sub_one_eq_mod, Nat.mod_self]
  · intro s s1 d h r x hput
    obtain ⟨t1, rfl⟩ := put_frame hash_mul fuel s s1 d h r x hput
    exact ⟨rfl, rfl⟩
  · intro s s1 tr hcl
    obtain ⟨t1, rfl⟩ := clear_frame fuel s s1 0 s.cache_size tr hcl
    exact ⟨rfl, rfl⟩
  · intro s s1 first count tr hcl
    obtain ⟨t1, rfl⟩ := clear_frame fuel s s1 first count tr hcl
    exact ⟨rfl, rfl⟩

/-- Instance of C11: the cache created for capacity 32 with callback 7 and
context 9, and a `put` and a range clear that return. -/
theorem create_postcondition_witness :
    llsimplecache_create 32 (some 7) 9 =
      some { cache_size := 32, mask := 31, table := List.replicate 32 0,
             cb_delete := some 7, cb_data := 9 } ∧
    llsimplecache_put (const_hash 0) 17 (cache16 (List.replicate 16 0)) 5 3 =
      Res.ok (1, cache16 [0, 0, 0, 5, 0, 0, 0, 0, 0, 0, 0, 0, 0, 0, 0, 0], 5) ∧
    llsimplecache_clear_partial 17 (cache16 [0, 0, 0, 5, 0, 0, 0, 0, 0, 0, 0, 0, 0, 0, 0, 0])
        0 16 = Res.ok (cache16 (List.replicate 16 0), []) ∧
    (31 = 32 - 1 ∧ 32 &&& 31 = 0) ∧
    ((cache16 [0, 0, 0, 5, 0, 0, 0, 0, 0, 0, 0, 0, 0, 0, 0, 0]).cache_size =
        (cache16 (List.replicate 16 0)).cache_size ∧
      (cache16 [0, 0, 0, 5, 0, 0, 0, 0, 0, 0, 0, 0, 0, 0, 0, 0]).mask =
        (cache16 (List.replicate 16 0)).mask) :=
  ⟨by decide, by decide, by decide,
    ⟨(create_postcondition (const_hash 0) 17 32 (some 7) 9
        { cache_size := 32, mask := 31, table := List.replicate 32 0,
          cb_delete := some 7, cb_data := 9 } (by decide)).1,
      (create_postcondition (const_hash 0) 17 32 (some 7) 9
        { cache_size := 32, mask := 31, table := List.replicate 32 0,
          cb_delete := some 7, cb_data := 9 } (by decide)).2.1⟩,
    (create_postcondition (const_hash 0) 17 32 (some 7) 9
        { cache_size := 32, mask := 31, table := List.replicate 32 0,
          cb_delete := some 7, cb_data := 9 } (by decide)).2.2.2.2.2.1
      (cache16 (List.replicate 16 0)) (cache16 [0, 0, 0, 5, 0, 0, 0, 0, 0, 0, 0, 0, 0, 0, 0, 0])
      5 3 1 5 (by decide)⟩

/-- C12 (as stated, refuted): the capacities 3 (not a power of two, below 16)
and 8 (below 16) are accepted and give a cache of 16 slots, and the power of
two `2 ^ 32` is rejected. -/
theorem create_rejects_counterexample :
    llsimplecache_create 3 none 0 = some (cache16 (List.replicate 16 0)) ∧
    (¬ ∃ k, 3 = 2 ^ k) ∧
    llsimplecache_create 8 none 0 = some (cache16 (List.replicate 16 0)) ∧
    llsimplecache_create (2 ^ 32) none 0 = none ∧ (∃ k, 2 ^ 32 = 2 ^ k) ∧ 16 ≤ 2 ^ 32 := by
  refine ⟨by decide, ?_, by decide, by decide, ⟨32, rfl⟩, by decide⟩
  rintro ⟨k, hk⟩
  rcases k with _ | _ | k
  · omega
  · omega
  · have : (2:Nat) ^ (k + 1 + 1) = 4 * 2 ^ k := by rw [pow_succ, pow_succ]; omega
    omega

/-- C12 (amended): `llsimplecache_create` fails (its assertion fails) for every
capacity of at least 16 that is not a power of two; a capacity below 16 is
raised to 16 and accepted, whether or not it is a power of two; and the call
succeeds, with the requested capacity, for every power of two from 16 to
`2 ^ 31`. -/
theorem create_rejects (c : Nat) (cb : Option Nat) (ctx : Nat) :
    (16 ≤ c → (¬ ∃ k, c = 2 ^ k) → llsimplecache_create c cb ctx = none) ∧
    (c < 16 → llsimplecache_create c cb ctx =
      some { cache_size := 16, mask := 15, table := List.replicate 16 0,
             cb_delete := cb, cb_data := ctx }) ∧
    ((∃ k, c = 2 ^ k) → 16 ≤ c → c ≤ 2 ^ 31 →
      ∃ dbs, llsimplecache_create c cb ctx = some dbs ∧ dbs.cache_size = c) := by
  refine ⟨?_, ?_, ?_⟩
  · intro h16 hnp
    apply create_reject
    rw [max_eq_left h16]
    exact fun h => hnp h.1
  · intro hlt
    have hm : max c 16 = 16 := max_eq_right (by omega)
    have := create_accept c cb ctx (by rw [hm]; exact ⟨⟨4, rfl⟩, by norm_num⟩)
    rw [hm] at this
    exact this
  · intro hp h16 h31
    have hm : max c 16 = c := max_eq_left h16
    have := create_accept c cb ctx (by rw [hm]; exact ⟨hp, h31⟩)
    rw [hm] at this
    exact ⟨_, this, rfl⟩

/-- Instance of C12 (amended): capacity 24 is rejected, capacity 3 gives 16
slots, capacity 64 is accepted. -/
theorem create_rejects_witness :
    llsimplecache_create 24 none 0 = none ∧
    llsimplecache_create 3 none 0 =
      some { cache_size := 16, mask := 15, table := List.replicate 16 0,
             cb_delete := none, cb_data := 0 } ∧
    ∃ dbs, llsimplecache_create 64 none 0 = some dbs ∧ dbs.cache_size = 64 :=
  ⟨(create_rejects 24 none 0).1 (by decide) (by
      rintro ⟨k, hk⟩
      rcases k with _ | _ | _ | _ | _ | k
      · omega
      · omega
      · omega
      · omega
      · omega
      · have : (2:Nat) ^ (k + 1 + 1 + 1 + 1 + 1) = 32 * 2 ^ k := by
          rw [pow_succ, pow_succ, pow_succ, pow_succ, pow_succ]; omega
        omega),
    (create_rejects 3 none 0).2.1 (by decide),
    (create_rejects 64 none 0).2.2 ⟨6, rfl⟩ (by decide) (by decide)⟩

/-- C13: on a valid cache, for every payload (0 included) and every hash
argument, a single-threaded `put` returns (given 17 units of fuel) and changes
at most one slot of the table; that slot lies in the line-aligned block of 16
slots around the home slot `hash & mask`, where `hash` is the hash used after
lines 55-56; and every non-zero value stored before the call is still stored
in the same slot afterwards or is the value returned in `*data` together with
the result InsertedEvicted (2). -/
theorem put_confined (hash_mul : List Nat → Nat → Nat) (fuel : Nat) (dbs : llsimplecache)
    (d h : Nat) (hwf : WF dbs) (hfuel : 17 ≤ fuel) :
    ∃ r dbs1 x, llsimplecache_put hash_mul fuel dbs d h = Res.ok (r, dbs1, x) ∧
      dbs1.table.length = dbs.table.length ∧
      (∃ s, (put_hash hash_mul d h &&& dbs.mask) / 16 * 16 ≤ s ∧
        s < (put_hash hash_mul d h &&& dbs.mask) / 16 * 16 + 16 ∧
        ∀ i, i ≠ s → slot dbs1.table i = slot dbs.table i) ∧
      ∀ i, slot dbs.table i ≠ 0 →
        slot dbs1.table i = slot dbs.table i ∨ (r = 2 ∧ x = slot dbs.table i) := by
  obtain ⟨h32, hb⟩ := put_bounds hash_mul dbs d h hwf
  rcases put_any_cases hash_mul fuel dbs d h h32 hb hfuel with
    ⟨k, _, _, h3, h4⟩ | ⟨k, _, _, _, _, h5⟩ | ⟨_, h2⟩
  · refine ⟨1, _, d, h4, by simp [with_table], ⟨walk_slot _ k, (walk_slot_block _ k).1,
      (walk_slot_block _ k).2, ?_⟩, ?_⟩
    · intro i hi
      show slot (dbs.table.set _ d) i = slot dbs.table i
      rw [slot_set]; simp [Ne.symm hi]
    · intro i hne
      left
      show slot (dbs.table.set _ d) i = slot dbs.table i
      rw [slot_set]
      have : walk_slot (put_hash hash_mul d h &&& dbs.mask) k ≠ i := by
        intro e; rw [e] at h3; exact hne h3
      simp [this]
  · exact ⟨0, dbs, d, h5, rfl, ⟨walk_slot _ 0, (walk_slot_block _ 0).1,
      (walk_slot_block _ 0).2, fun _ _ => rfl⟩, fun _ _ => Or.inl rfl⟩
  · refine ⟨2, _, _, h2, by simp [with_table], ⟨put_hash hash_mul d h &&& dbs.mask, ?_, ?_, ?_⟩,
      ?_⟩
    · have := (walk_slot_block (put_hash hash_mul d h &&& dbs.mask) 0).1
      rwa [walk_slot_zero] at this
    · have := (walk_slot_block (put_hash hash_mul d h &&& dbs.mask) 0).2
      rwa [walk_slot_zero] at this
    · intro i hi
      show slot (dbs.table.set _ d) i = slot dbs.table i
      rw [slot_set]; simp [Ne.symm hi]
    · intro i _
      by_cases hi : put_hash hash_mul d h &&& dbs.mask = i
      · right; exact ⟨rfl, by rw [hi]⟩
      · left
        show slot (dbs.table.set _ d) i = slot dbs.table i
        rw [slot_set]; simp [hi]

/-- Instance of C13: the evicting `put(170, 3)` on the full table 10, ..., 160,
which changes slot 3 only and returns its previous value 40. -/
theorem put_confined_witness :
    WF (cache16 [10, 20, 30, 40, 50, 60, 70, 80, 90, 100, 110, 120, 130, 140, 150, 160]) ∧
    llsimplecache_put (const_hash 0) 17
        (cache16 [10, 20, 30, 40, 50, 60, 70, 80, 90, 100, 110, 120, 130, 140, 150, 160]) 170 3
      = Res.ok (2,
          cache16 [10, 20, 30, 170, 50, 60, 70, 80, 90, 100, 110, 120, 130, 140, 150, 160], 40) ∧
    ∃ r dbs1 x,
      llsimplecache_put (const_hash 0) 17
          (cache16 [10, 20, 30, 40, 50, 60, 70, 80, 90, 100, 110, 120, 130, 140, 150, 160]) 170 3
        = Res.ok (r, dbs1, x) ∧
      dbs1.table.length =
        (cache16 [10, 20, 30, 40, 50, 60, 70, 80, 90, 100, 110, 120, 130, 140, 150,
          160]).table.length ∧
      (∃ s, (put_hash (const_hash 0) 170 3 &&&
            (cache16 [10, 20, 30, 40, 50, 60, 70, 80, 90, 100, 110, 120, 130, 140, 150,
              160]).mask) / 16 * 16 ≤ s ∧
        s < (put_hash (const_hash 0) 170 3 &&&
            (cache16 [10, 20, 30, 40, 50, 60, 70, 80, 90, 100, 110, 120, 130, 140, 150,
              160]).mask) / 16 * 16 + 16 ∧
        ∀ i, i ≠ s → slot dbs1.table i =
          slot (cache16 [10, 20, 30, 40, 50, 60, 70, 80, 90, 100, 110, 120, 130, 140, 150,
            160]).table i) ∧
      ∀ i, slot (cache16 [10, 20, 30, 40, 50, 60, 70, 80, 90, 100, 110, 120, 130, 140, 150,
            160]).table i ≠ 0 →
        slot dbs1.table i =
            slot (cache16 [10, 20, 30, 40, 50, 60, 70, 80, 90, 100, 110, 120, 130, 140, 150,
              160]).table i ∨
          (r = 2 ∧ x = slot (cache16 [10, 20, 30, 40, 50, 60, 70, 80, 90, 100, 110, 120, 130,
            140, 150, 160]).table i) :=
  ⟨wf_cache16 _ rfl, by decide,
    put_confined (const_hash 0) 17 _ 170 3 (wf_cache16 _ rfl) (by decide)⟩

/-- C14: on a valid cache with a registered release callback `f`, every `put`
(any payload, any hash argument) returns with the log of callback calls
unchanged and with the callback and its context still registered; when the
result is InsertedEvicted (2), the evicted payload, the non-zero previous
content of the home slot, is what `*data` holds on return. By contrast `clear`
on the same state appends one callback call per stored value to the log. -/
theorem put_no_callback (hash_mul : List Nat → Nat → Nat) (fuel : Nat) (dbs : llsimplecache)
    (d h f : Nat) (log : List CbCall) (hwf : WF dbs) (hcb : dbs.cb_delete = some f)
    (hfuel : dbs.cache_size + 1 ≤ fuel) :
    (∃ r dbs1 x, put_logged hash_mul fuel dbs d h log = Res.ok ((r, dbs1, x), log) ∧
      dbs1.cb_delete = some f ∧ dbs1.cb_data = dbs.cb_data ∧
      (r = 2 → x = slot dbs.table (put_hash hash_mul d h &&& dbs.mask) ∧ x ≠ 0 ∧
        slot dbs1.table (put_hash hash_mul d h &&& dbs.mask) = d)) ∧
    (∃ dbs2, clear_logged fuel dbs log =
      Res.ok (dbs2, log ++ release_calls f dbs.cb_data dbs.table)) := by
  obtain ⟨h32, hb⟩ := put_bounds hash_mul dbs d h hwf
  have h16 := hwf.2.1
  constructor
  · rcases put_any_cases hash_mul fuel dbs d h h32 hb (by omega) with
      ⟨k, _, _, _, h4⟩ | ⟨k, _, _, _, _, h5⟩ | ⟨h1, h2⟩
    · exact ⟨1, with_table dbs
          (dbs.table.set (walk_slot (put_hash hash_mul d h &&& dbs.mask) k) d), d,
        by simp only [put_logged, h4], hcb, rfl, fun e => absurd e (by decide)⟩
    · exact ⟨0, dbs, d, by simp only [put_logged, h5], hcb, rfl, fun e => absurd e (by decide)⟩
    · refine ⟨2, with_table dbs (dbs.table.set (put_hash hash_mul d h &&& dbs.mask) d),
        slot dbs.table (put_hash hash_mul d h &&& dbs.mask),
        by simp only [put_logged, h2], hcb, rfl, fun _ => ⟨rfl, ?_, ?_⟩⟩
      · have := (h1 0 (by decide)).1
        rwa [walk_slot_zero] at this
      · have := hb 0
        rw [walk_slot_zero] at this
        exact slot_set_same _ _ _ this
  · obtain ⟨t1, e1, _, _⟩ :=
      clear_partial_eq fuel dbs 0 dbs.cache_size hwf.2.2.2.1 hwf.2.2.2.2 (by omega) hfuel
    have htake : (dbs.table.drop 0).take dbs.cache_size = dbs.table := by
      rw [List.drop_zero, ← hwf.2.2.2.1, List.take_length]
    rw [htake, hcb] at e1
    exact ⟨with_table dbs t1, by simp only [clear_logged, llsimplecache_clear, e1]⟩

/-- Instance of C14: the evicting `put(170, 3)` on a full 16-slot cache with
callback 7 and context 9, with one earlier call in the log. -/
theorem put_no_callback_witness :
    WF (cache16_cb [10, 20, 30, 40, 50, 60, 70, 80, 90, 100, 110, 120, 130, 140, 150, 160]) ∧
    put_logged (const_hash 0) 17
        (cache16_cb [10, 20, 30, 40, 50, 60, 70, 80, 90, 100, 110, 120, 130, 140, 150, 160])
        170 3 [(7, 9, 1)] =
      Res.ok ((2, cache16_cb [10, 20, 30, 170, 50, 60, 70, 80, 90, 100, 110, 120, 130, 140,
        150, 160], 40), [(7, 9, 1)]) ∧
    ((∃ r dbs1 x, put_logged (const_hash 0) 17
          (cache16_cb [10, 20, 30, 40, 50, 60, 70, 80, 90, 100, 110, 120, 130, 140, 150, 160])
          170 3 [(7, 9, 1)] = Res.ok ((r, dbs1, x), [(7, 9, 1)]) ∧
        dbs1.cb_delete = some 7 ∧
        dbs1.cb_data = (cache16_cb [10, 20, 30, 40, 50, 60, 70, 80, 90, 100, 110, 120, 130,
          140, 150, 160]).cb_data ∧
        (r = 2 →
          x = slot (cache16_cb [10, 20, 30, 40, 50, 60, 70, 80, 90, 100, 110, 120, 130, 140,
              150, 160]).table
            (put_hash (const_hash 0) 170 3 &&&
              (cache16_cb [10, 20, 30, 40, 50, 60, 70, 80, 90, 100, 110, 120, 130, 140, 150,
                160]).mask) ∧
          x ≠ 0 ∧
          slot dbs1.table (put_hash (const_hash 0) 170 3 &&&
              (cache16_cb [10, 20, 30, 40, 50, 60, 70, 80, 90, 100, 110, 120, 130, 140, 150,
                160]).mask) = 170)) ∧
      (∃ dbs2, clear_logged 17
          (cache16_cb [10, 20, 30, 40, 50, 60, 70, 80, 90, 100, 110, 120, 130, 140, 150, 160])
          [(7, 9, 1)] =
        Res.ok (dbs2, [(7, 9, 1)] ++ release_calls 7
          (cache16_cb [10, 20, 30, 40, 50, 60, 70, 80, 90, 100, 110, 120, 130, 140, 150,
            160]).cb_data
          (cache16_cb [10, 20, 30, 40, 50, 60, 70, 80, 90, 100, 110, 120, 130, 140, 150,
            160]).table))) :=
  ⟨⟨⟨4, rfl⟩, Nat.le_refl 16, rfl, rfl, by decide⟩, by decide,
    put_no_callback (const_hash 0) 17
      (cache16_cb [10, 20, 30, 40, 50, 60, 70, 80, 90, 100, 110, 120, 130, 140, 150, 160])
      170 3 7 [(7, 9, 1)] ⟨⟨4, rfl⟩, Nat.le_refl 16, rfl, rfl, by decide⟩ rfl (by decide)⟩

/-- C16: for every 32-bit start index `s`, the index after `k` calls of `next`
is `(s & 0xFFFFFFF0) + ((s mod 16 + k) mod 16)`: the walk goes `s, s+1, ...` and
wraps from the last index of the line-aligned block to its first; it never
leaves the block; each index of the block is reached at exactly one of the
steps 0 to 15; `next` returns 1 (continue) at the calls 1 to 15 and 0 (stop) at
call 16, when the index is `s` again; and the loops of `put` started at `s`
return within 17 units of fuel, 16 iterations of the scan loop and one of the
claim loop, whenever the block lies inside the table. -/
theorem next_walk (s : Nat) (hs : s < 2 ^ 32) :
    (∀ k, next_n s k = (s &&& CL_MASK) + (s % 16 + k) % 16) ∧
    (∀ k, s &&& CL_MASK ≤ next_n s k ∧ next_n s k ≤ (s &&& CL_MASK) + 15) ∧
    (∀ i, s &&& CL_MASK ≤ i → i ≤ (s &&& CL_MASK) + 15 →
      ∃ k, k < 16 ∧ next_n s k = i ∧ ∀ k2, k2 < 16 → next_n s k2 = i → k2 = k) ∧
    (∀ k, k < 15 → (next (next_n s k) s).2 = true) ∧
    (next (next_n s 15) s).2 = false ∧ next_n s 16 = s ∧
    (∀ (d fuel : Nat) (t : List Nat), (∀ j, next_n s j < t.length) → 17 ≤ fuel →
      ∃ r, put_scan d s fuel s t = Res.ok r) := by
  have hbase : s &&& CL_MASK = s / 16 * 16 := by
    rw [and_cl_mask s hs]; norm_num; omega
  have hn : ∀ k, next_n s k = walk_slot s k := next_n_eq s hs
  refine ⟨?_, ?_, ?_, ?_, ?_, ?_, ?_⟩
  · intro k
    rw [hn, hbase]; unfold walk_slot; omega
  · intro k
    rw [hn, hbase]; unfold walk_slot; omega
  · intro i h1 h2
    rw [hbase] at h1 h2
    refine ⟨(i + 16 - s % 16) % 16, Nat.mod_lt _ (by decide), ?_, ?_⟩
    · rw [hn]; unfold walk_slot; omega
    · intro k2 hk2 e
      rw [hn] at e; unfold walk_slot at e; omega
  · intro k hk
    rw [hn, next_walk_slot s k hs]
    simpa using walk_slot_ne_home s (k + 1) (by omega) (by omega)
  · rw [hn, next_walk_slot s 15 hs]
    have : walk_slot s (15 + 1) = s := by unfold walk_slot; omega
    simp [this]
  · rw [hn]; unfold walk_slot; omega
  · intro d fuel t hb hfuel
    have hb2 : ∀ j, walk_slot s j < t.length := fun j => by rw [← hn]; exact hb j
    have := put_scan_any_eq d s t hs hb2 15 0 fuel (by omega) (Or.inl rfl) (by omega)
    rw [walk_slot_zero] at this
    exact ⟨_, this⟩

/-- Instance of C16: the start index `0xFFFFFFFF`, whose successor wraps to
`0xFFFFFFF0`. -/
theorem next_walk_witness :
    next_n 4294967295 1 = 4294967280 ∧ next_n 4294967295 16 = 4294967295 ∧
    (∀ k, next_n 4294967295 k = (4294967295 &&& CL_MASK) + (4294967295 % 16 + k) % 16) ∧
    (next (next_n 4294967295 15) 4294967295).2 = false :=
  ⟨by decide, by decide, (next_walk 4294967295 (by decide)).1,
    (next_walk 4294967295 (by decide)).2.2.2.2.1⟩

/-- C17: for every cache whose capacity is a power of two of at least 16, with
`mask = capacity - 1` (a 32-bit word) and a table of exactly `capacity` slots,
and for every payload and hash argument, the home index `hash & mask` and every
index produced by the walk are below the capacity, `put` never takes the
out-of-bounds branch, with any amount of fuel, and it returns with 17 units. -/
theorem put_index_safe (hash_mul : List Nat → Nat → Nat) (dbs : llsimplecache) (d h : Nat)
    (hpow : ∃ k, dbs.cache_size = 2 ^ k) (h16 : 16 ≤ dbs.cache_size)
    (hmask : dbs.mask = dbs.cache_size - 1) (hlen : dbs.table.length = dbs.cache_size)
    (hm32 : dbs.mask < 2 ^ 32) (h64 : dbs.cache_size < 2 ^ 64) :
    put_hash hash_mul d h &&& dbs.mask < dbs.cache_size ∧
    (∀ k, next_n (put_hash hash_mul d h &&& dbs.mask) k < dbs.cache_size) ∧
    (∀ fuel, llsimplecache_put hash_mul fuel dbs d h ≠ Res.fault) ∧
    (∀ fuel, 17 ≤ fuel → ∃ r, llsimplecache_put hash_mul fuel dbs d h = Res.ok r) := by
  have hwf : WF dbs := by
    refine ⟨hpow, h16, ?_, hlen, h64⟩
    rw [← hmask]; exact (Nat.mod_eq_of_lt hm32).symm
  obtain ⟨h32, hb⟩ := put_bounds hash_mul dbs d h hwf
  refine ⟨(home_lt dbs _ hwf).2, ?_, ?_, ?_⟩
  · intro k
    rw [next_n_eq _ h32, ← hlen]
    exact hb k
  · intro fuel hf
    have hs := put_scan_no_fault d (put_hash hash_mul d h &&& dbs.mask) h32 fuel 0 dbs.table hb
    rw [walk_slot_zero] at hs
    unfold llsimplecache_put at hf
    simp only at hf
    cases hr : put_scan d (put_hash hash_mul d h &&& dbs.mask) fuel
        (put_hash hash_mul d h &&& dbs.mask) dbs.table with
    | ok a => rw [hr] at hf; exact absurd hf (by simp)
    | fault => exact hs hr
    | timeout => rw [hr] at hf; exact absurd hf (by simp)
  · intro fuel hfuel
    rcases put_any_cases hash_mul fuel dbs d h h32 hb hfuel with
      ⟨_, _, _, _, h4⟩ | ⟨_, _, _, _, _, h5⟩ | ⟨_, h2⟩
    · exact ⟨_, h4⟩
    · exact ⟨_, h5⟩
    · exact ⟨_, h2⟩

/-- Instance of C17: a cache of 32 slots, payload 0 and the largest 32-bit
hash. -/
theorem put_index_safe_witness :
    put_hash (const_hash 0) 0 4294967295 &&& 31 < 32 ∧
    (∀ k, next_n (put_hash (const_hash 0) 0 4294967295 &&& 31) k < 32) ∧
    (∀ fuel, llsimplecache_put (const_hash 0) fuel
      { cache_size := 32, mask := 31, table := List.replicate 32 0,
        cb_delete := none, cb_data := 0 } 0 4294967295 ≠ Res.fault) ∧
    (∀ fuel, 17 ≤ fuel → ∃ r, llsimplecache_put (const_hash 0) fuel
      { cache_size := 32, mask := 31, table := List.replicate 32 0,
        cb_delete := none, cb_data := 0 } 0 4294967295 = Res.ok r) :=
  put_index_safe (const_hash 0)
    { cache_size := 32, mask := 31, table := List.replicate 32 0,
      cb_delete := none, cb_data := 0 } 0 4294967295 ⟨5, rfl⟩ (by decide) rfl rfl
    (by decide) (by decide)

/-- C18: from a newly created cache, every single-threaded sequence of `put`
calls with non-zero payloads whose hash argument is a fixed function `g` of the
payload (for instance always 0, so that the hash is derived from the payload)
and of whole-table `clear` calls returns, given `capacity + 1` units of fuel,
and in the state it reaches no non-zero payload is stored twice and every
stored payload sits at some step `k < 16` of the walk from its own home slot,
with no EMPTY slot at the steps before `k`. -/
theorem consistent_hash_chain (hash_mul : List Nat → Nat → Nat) (g : Nat → Nat)
    (fuel c : Nat) (cb : Option Nat) (ctx : Nat) (dbs0 : llsimplecache) (ops : List Op)
    (hc : llsimplecache_create c cb ctx = some dbs0)
    (hops : ∀ op ∈ ops, (∃ d, d ≠ 0 ∧ op = Op.put d (g d)) ∨ op = Op.clear)
    (hfuel : dbs0.cache_size + 1 ≤ fuel) :
    ∃ dbs, run hash_mul fuel dbs0 ops = Res.ok dbs ∧ no_dup dbs.table ∧
      ∀ i, i < dbs.table.length → slot dbs.table i ≠ 0 →
        ∃ k, k < 16 ∧
          walk_slot (put_hash hash_mul (slot dbs.table i) (g (slot dbs.table i)) &&& dbs.mask) k
            = i ∧
          ∀ j, j < k → slot dbs.table (walk_slot
            (put_hash hash_mul (slot dbs.table i) (g (slot dbs.table i)) &&& dbs.mask) j) ≠ 0 := by
  obtain ⟨hwf, _, htab, _, _⟩ := create_wf c cb ctx dbs0 hc
  obtain ⟨hinv, hnd⟩ := inv_of_empty (fun x => put_hash hash_mul x (g x)) dbs0 htab
  have hok : ∀ op ∈ ops, op_ok g dbs0.cache_size op := by
    intro op hop
    rcases hops op hop with ⟨d, hd, rfl⟩ | rfl
    · exact ⟨hd, rfl⟩
    · exact trivial
  obtain ⟨dbs, e, _, _, r3, r4⟩ :=
    run_preserves_inv hash_mul g fuel ops dbs0 hwf hok hfuel hinv hnd
  exact ⟨dbs, e, r4, fun i hi hne => r3 i hi hne⟩

/-- Instance of C18: capacity 32, every hash derived from the payload (hash
argument 0) by a hash function with value 5. -/
theorem consistent_hash_chain_witness :
    llsimplecache_create 32 none 0 =
      some { cache_size := 32, mask := 31, table := List.replicate 32 0,
             cb_delete := none, cb_data := 0 } ∧
    ∃ dbs, run (const_hash 5) 33
        { cache_size := 32, mask := 31, table := List.replicate 32 0,
          cb_delete := none, cb_data := 0 }
        [Op.put 7 0, Op.put 8 0, Op.put 7 0, Op.clear, Op.put 9 0] = Res.ok dbs ∧
      no_dup dbs.table ∧
      ∀ i, i < dbs.table.length → slot dbs.table i ≠ 0 →
        ∃ k, k < 16 ∧
          walk_slot (put_hash (const_hash 5) (slot dbs.table i) ((fun _ => 0) (slot dbs.table i))
            &&& dbs.mask) k = i ∧
          ∀ j, j < k → slot dbs.table (walk_slot
            (put_hash (const_hash 5) (slot dbs.table i) ((fun _ => 0) (slot dbs.table i))
              &&& dbs.mask) j) ≠ 0 :=
  ⟨by decide,
    consistent_hash_chain (const_hash 5) (fun _ => 0) 33 32 none 0
      { cache_size := 32, mask := 31, table := List.replicate 32 0,
        cb_delete := none, cb_data := 0 }
      [Op.put 7 0, Op.put 8 0, Op.put 7 0, Op.clear, Op.put 9 0] (by decide)
      (by simp) (by decide)⟩

/-- C19: `llsimplecache_create(c, ...)` passes its assertion if and only if
`max(c, 16)` is a power of two and at most `2 ^ 31`; the created cache then has
capacity `max(c, 16)` and mask `max(c, 16) - 1`; in particular every requested
capacity from 0 to 15 gives a cache of 16 slots, and the power of two `2 ^ 32`
is rejected. -/
theorem create_acceptance (c : Nat) (cb : Option Nat) (ctx : Nat) :
    ((∃ dbs, llsimplecache_create c cb ctx = some dbs) ↔
      ((∃ k, max c 16 = 2 ^ k) ∧ max c 16 ≤ 2 ^ 31)) ∧
    (∀ dbs, llsimplecache_create c cb ctx = some dbs →
      dbs.cache_size = max c 16 ∧ dbs.mask = max c 16 - 1) ∧
    (c ≤ 15 → ∃ dbs, llsimplecache_create c cb ctx = some dbs ∧ dbs.cache_size = 16 ∧
      dbs.table.length = 16) ∧
    llsimplecache_create (2 ^ 32) cb ctx = none ∧ (∃ k, 2 ^ 32 = 2 ^ k) := by
  have hcases : ∀ dbs, llsimplecache_create c cb ctx = some dbs →
      ((∃ k, max c 16 = 2 ^ k) ∧ max c 16 ≤ 2 ^ 31) ∧
        dbs.cache_size = max c 16 ∧ dbs.mask = max c 16 - 1 := by
    intro dbs hdbs
    by_cases hacc : (∃ k, max c 16 = 2 ^ k) ∧ max c 16 ≤ 2 ^ 31
    · rw [create_accept c cb ctx hacc] at hdbs
      injection hdbs with hdbs
      subst hdbs
      exact ⟨hacc, rfl, rfl⟩
    · rw [create_reject c cb ctx hacc] at hdbs
      exact absurd hdbs (by simp)
  refine ⟨⟨?_, ?_⟩, fun dbs hdbs => (hcases dbs hdbs).2, ?_, ?_, ⟨32, rfl⟩⟩
  · rintro ⟨dbs, hdbs⟩
    exact (hcases dbs hdbs).1
  · intro hacc
    exact ⟨_, create_accept c cb ctx hacc⟩
  · intro h15
    have hm : max c 16 = 16 := max_eq_right (by omega)
    have := create_accept c cb ctx (by rw [hm]; exact ⟨⟨4, rfl⟩, by norm_num⟩)
    rw [hm] at this
    exact ⟨_, this, rfl, by simp⟩
  · apply create_reject
    intro hacc
    have h1 : max (2 ^ 32) 16 = 2 ^ 32 := max_eq_left (by norm_num)
    have h2 := hacc.2
    rw [h1] at h2
    norm_num at h2

/-- Instance of C19: the requested capacity 5 gives 16 slots. -/
theorem create_acceptance_witness :
    5 ≤ 15 ∧ ∃ dbs, llsimplecache_create 5 none 0 = some dbs ∧ dbs.cache_size = 16 ∧
      dbs.table.length = 16 :=
  ⟨by decide, (create_acceptance 5 none 0).2.2.1 (by decide)⟩

/-- C20: on a valid cache, a single-threaded `put` of the reserved payload 0
(any hash argument) never returns Found; if the home neighbourhood has an EMPTY
slot it returns InsertedEmpty (1) and leaves the cache, table included, as it
was; if the neighbourhood is full it returns InsertedEvicted (2) with the
previous value of the home slot in `*data` and leaves the home slot EMPTY, so
that one slot less of the neighbourhood is occupied. -/
theorem put_zero (hash_mul : List Nat → Nat → Nat) (fuel : Nat) (dbs : llsimplecache)
    (h : Nat) (hwf : WF dbs) (hfuel : 17 ≤ fuel) :
    (∀ dbs1 x, llsimplecache_put hash_mul fuel dbs 0 h ≠ Res.ok (0, dbs1, x)) ∧
    ((∃ i ∈ walk (put_hash hash_mul 0 h &&& dbs.mask), slot dbs.table i = 0) →
      llsimplecache_put hash_mul fuel dbs 0 h = Res.ok (1, dbs, 0)) ∧
    ((∀ i ∈ walk (put_hash hash_mul 0 h &&& dbs.mask), slot dbs.table i ≠ 0) →
      ∃ dbs1, llsimplecache_put hash_mul fuel dbs 0 h =
          Res.ok (2, dbs1, slot dbs.table (put_hash hash_mul 0 h &&& dbs.mask)) ∧
        slot dbs1.table (put_hash hash_mul 0 h &&& dbs.mask) = 0 ∧
        (∀ i, i ≠ put_hash hash_mul 0 h &&& dbs.mask → slot dbs1.table i = slot dbs.table i) ∧
        occupied dbs1.table (put_hash hash_mul 0 h &&& dbs.mask) + 1 =
          occupied dbs.table (put_hash hash_mul 0 h &&& dbs.mask)) := by
  obtain ⟨h32, hb⟩ := put_bounds hash_mul dbs 0 h hwf
  have hmem : ∀ k, k < 16 →
      walk_slot (put_hash hash_mul 0 h &&& dbs.mask) k ∈
        walk (put_hash hash_mul 0 h &&& dbs.mask) := by
    intro k hk
    simp only [walk, List.mem_map, List.mem_range]
    exact ⟨k, hk, rfl⟩
  have hhome : put_hash hash_mul 0 h &&& dbs.mask < dbs.table.length := by
    have := hb 0
    rwa [walk_slot_zero] at this
  rcases put_any_cases hash_mul fuel dbs 0 h h32 hb hfuel with
    ⟨k, hk, _, h3, h4⟩ | ⟨k, _, _, h3, h4, _⟩ | ⟨h1, h2⟩
  · have hsame : with_table dbs
        (dbs.table.set (walk_slot (put_hash hash_mul 0 h &&& dbs.mask) k) 0) = dbs := by
      simp only [with_table, set_same dbs.table _ 0 h3 (hb k)]
    rw [hsame] at h4
    refine ⟨?_, fun _ => h4, ?_⟩
    · intro dbs1 x e
      rw [h4] at e
      simp at e
    · intro hfull
      exact absurd h3 (hfull _ (hmem k hk))
  · exact absurd h4 h3
  · refine ⟨?_, ?_, ?_⟩
    · intro dbs1 x e
      rw [h2] at e
      simp at e
    · rintro ⟨i, hi, hi0⟩
      simp only [walk, List.mem_map, List.mem_range] at hi
      obtain ⟨k, hk, rfl⟩ := hi
      exact absurd hi0 (h1 k hk).1
    · intro _
      refine ⟨_, h2, slot_set_same _ _ _ hhome, ?_, ?_⟩
      · intro i hi
        show slot (dbs.table.set _ 0) i = slot dbs.table i
        rw [slot_set]; simp [Ne.symm hi]
      · exact occupied_after_zero dbs.table _ hhome (fun j hj => (h1 j hj).1)

/-- Instance of C20: `put(0, 3)` on a table with EMPTY slots and on a full
table, where it empties slot 3 and returns 40. -/
theorem put_zero_witness :
    WF (cache16 [0, 0, 0, 5, 0, 0, 0, 0, 0, 0, 0, 0, 0, 0, 0, 0]) ∧
    (∃ i ∈ walk (put_hash (const_hash 0) 0 3 &&&
        (cache16 [0, 0, 0, 5, 0, 0, 0, 0, 0, 0, 0, 0, 0, 0, 0, 0]).mask),
      slot (cache16 [0, 0, 0, 5, 0, 0, 0, 0, 0, 0, 0, 0, 0, 0, 0, 0]).table i = 0) ∧
    llsimplecache_put (const_hash 0) 17
        (cache16 [0, 0, 0, 5, 0, 0, 0, 0, 0, 0, 0, 0, 0, 0, 0, 0]) 0 3 =
      Res.ok (1, cache16 [0, 0, 0, 5, 0, 0, 0, 0, 0, 0, 0, 0, 0, 0, 0, 0], 0) ∧
    llsimplecache_put (const_hash 0) 17
        (cache16 [10, 20, 30, 40, 50, 60, 70, 80, 90, 100, 110, 120, 130, 140, 150, 160]) 0 3 =
      Res.ok (2, cache16 [10, 20, 30, 0, 50, 60, 70, 80, 90, 100, 110, 120, 130, 140, 150, 160],
        40) ∧
    (∀ dbs1 x, llsimplecache_put (const_hash 0) 17
        (cache16 [10, 20, 30, 40, 50, 60, 70, 80, 90, 100, 110, 120, 130, 140, 150, 160]) 0 3 ≠
      Res.ok (0, dbs1, x)) :=
  ⟨wf_cache16 _ rfl, ⟨4, by decide, by decide⟩,
    (put_zero (const_hash 0) 17 (cache16 [0, 0, 0, 5, 0, 0, 0, 0, 0, 0, 0, 0, 0, 0, 0, 0]) 3
      (wf_cache16 _ rfl) (by decide)).2.1 ⟨4, by decide, by decide⟩,
    by decide,
    (put_zero (const_hash 0) 17
      (cache16 [10, 20, 30, 40, 50, 60, 70, 80, 90, 100, 110, 120, 130, 140, 150, 160]) 3
      (wf_cache16 _ rfl) (by decide)).1⟩

end LLSimpleCache
